import Mathlib

/-!
Verification of the Markdown-rendering / HTML-to-Markdown core of the
AI-Copy-Enhance browser extension.

Strings are modelled as `List Char` (JavaScript strings are sequences of
code units; all inputs of interest here are plain characters).  Each
definition is a direct shallow embedding of the corresponding TypeScript
function; JavaScript regular-expression replacements are embedded as the
deterministic scanners they denote on their concrete patterns
(left-to-right, leftmost match, non-overlapping, resuming after each
match, as `String.prototype.replace` with the `g` flag does).
-/

namespace AICE

/-- Character list standing for a JavaScript string. -/
abbrev Str := List Char

/-! ## Line splitting and joining (JS `String.split('\n')`) -/

/-- `splitNl s` is JavaScript `s.split('\n')`: the list of newline-separated
pieces, always nonempty, with empty pieces kept. -/
def splitNl : Str → List Str
  | [] => [[]]
  | c :: cs =>
    if c = '\n' then [] :: splitNl cs
    else
      match splitNl cs with
      | [] => [[c]]
      | p :: ps => (c :: p) :: ps

/-- Join lines, terminating every line with a newline. -/
def joinNl (ls : List Str) : Str := (ls.map (fun l => l ++ ['\n'])).flatten

theorem splitNl_ne_nil (s : Str) : splitNl s ≠ [] := by
  induction s with
  | nil => simp [splitNl]
  | cons c cs ih =>
    simp only [splitNl]
    split
    · simp
    · cases h : splitNl cs with
      | nil => simp
      | cons p ps => simp

theorem joinNl_splitNl (s : Str) : joinNl (splitNl s) = s ++ ['\n'] := by
  induction s with
  | nil => simp [splitNl, joinNl]
  | cons c cs ih =>
    simp only [splitNl]
    split
    · rename_i h
      subst h
      simp [joinNl] at ih ⊢
      exact ih
    · cases h : splitNl cs with
      | nil => exact absurd h (splitNl_ne_nil cs)
      | cons p ps =>
        rw [h] at ih
        simp [joinNl] at ih ⊢
        exact ih

/-- If a string contains no newline, splitting yields the single whole line. -/
theorem splitNl_of_no_nl (s : Str) (h : ∀ c ∈ s, c ≠ '\n') : splitNl s = [s] := by
  induction s with
  | nil => simp [splitNl]
  | cons c cs ih =>
    simp only [splitNl]
    rw [if_neg (h c (by simp))]
    rw [ih (fun d hd => h d (by simp [hd]))]

/-! ## `MarkdownRenderer.chunkMarkdown`

Embedding of `src/renderer/core/MarkdownRenderer.ts`, `chunkMarkdown`:

```ts
if (markdown.length <= chunkSize) return [markdown];
const lines = markdown.split('\n');
const chunks = []; let currentChunk = '';
for (const line of lines) {
  if (currentChunk.length + line.length > chunkSize) {
    chunks.push(currentChunk); currentChunk = line + '\n';
  } else { currentChunk += line + '\n'; }
}
if (currentChunk) chunks.push(currentChunk);
return chunks;
```
-/

/-- The loop of `chunkMarkdown`: fold the lines into chunks. -/
def chunkLoop (chunkSize : Nat) : List Str → Str → List Str
  | [], cur => if cur = [] then [] else [cur]
  | l :: ls, cur =>
    if chunkSize < cur.length + l.length then
      cur :: chunkLoop chunkSize ls (l ++ ['\n'])
    else
      chunkLoop chunkSize ls (cur ++ l ++ ['\n'])

/-- `MarkdownRenderer.chunkMarkdown`.  The renderer calls it with
`chunkSize = 20000`. -/
def chunkMarkdown (markdown : Str) (chunkSize : Nat) : List Str :=
  if markdown.length ≤ chunkSize then [markdown]
  else chunkLoop chunkSize (splitNl markdown) []

theorem joinNl_append_one (g : List Str) (l : Str) :
    joinNl (g ++ [l]) = joinNl g ++ (l ++ ['\n']) := by
  simp [joinNl]

theorem joinNl_eq_nil_iff (g : List Str) : joinNl g = [] ↔ g = [] := by
  cases g with
  | nil => simp [joinNl]
  | cons l ls => simp [joinNl]

theorem chunkLoop_join (n : Nat) :
    ∀ (ls : List Str) (g : List Str),
      (chunkLoop n ls (joinNl g)).flatten = joinNl g ++ joinNl ls := by
  intro ls
  induction ls with
  | nil =>
    intro g
    simp only [chunkLoop]
    split
    · rename_i h
      rw [(joinNl_eq_nil_iff g).mp h]
      simp [joinNl]
    · simp [joinNl]
  | cons l ls ih =>
    intro g
    simp only [chunkLoop]
    split
    · have h1 : joinNl [l] = l ++ ['\n'] := by simp [joinNl]
      have h2 := ih [l]
      rw [h1] at h2
      have h3 : joinNl (l :: ls) = (l ++ ['\n']) ++ joinNl ls := by simp [joinNl]
      simp only [List.flatten_cons, h2, h3]
    · have h1 : joinNl g ++ l ++ ['\n'] = joinNl (g ++ [l]) := by
        rw [joinNl_append_one]; simp
      rw [h1, ih (g ++ [l]), joinNl_append_one]
      simp [joinNl]

/-- Concatenating all chunks of an over-long input recovers the input plus a
single appended newline. -/
theorem chunkMarkdown_join_of_long (md : Str) (n : Nat) (h : n < md.length) :
    (chunkMarkdown md n).flatten = md ++ ['\n'] := by
  have hj : joinNl ([] : List Str) = [] := by simp [joinNl]
  have := chunkLoop_join n (splitNl md) []
  rw [hj] at this
  simp only [chunkMarkdown, if_neg (Nat.not_le_of_lt h)]
  rw [this, List.nil_append, joinNl_splitNl]

theorem chunkMarkdown_small (md : Str) (n : Nat) (h : md.length ≤ n) :
    chunkMarkdown md n = [md] := by
  simp [chunkMarkdown, h]

/-- Chunks are concatenations of contiguous groups of newline-terminated
input lines. -/
theorem chunkLoop_groups (n : Nat) :
    ∀ (ls : List Str) (g : List Str),
      ∃ groups : List (List Str),
        groups.flatten = g ++ ls ∧
        chunkLoop n ls (joinNl g) = groups.map joinNl := by
  intro ls
  induction ls with
  | nil =>
    intro g
    by_cases hg : g = []
    · subst hg
      refine ⟨[], by simp, ?_⟩
      simp [chunkLoop, joinNl]
    · refine ⟨[g], by simp, ?_⟩
      simp only [chunkLoop]
      rw [if_neg ((not_iff_not.mpr (joinNl_eq_nil_iff g)).mpr hg)]
      simp
  | cons l ls ih =>
    intro g
    simp only [chunkLoop]
    split
    · obtain ⟨groups, hjoin, heq⟩ := ih [l]
      refine ⟨g :: groups, by simp [hjoin], ?_⟩
      have h1 : joinNl [l] = l ++ ['\n'] := by simp [joinNl]
      rw [← h1, heq]
      simp
    · obtain ⟨groups, hjoin, heq⟩ := ih (g ++ [l])
      refine ⟨groups, by simp [hjoin], ?_⟩
      have h1 : joinNl g ++ l ++ ['\n'] = joinNl (g ++ [l]) := by
        rw [joinNl_append_one]; simp
      rw [h1, heq]

/-- Size bound for chunks: each chunk is at most `chunkSize + 1` characters
long, or is a single newline-terminated input line. -/
theorem chunkLoop_sizes (n : Nat) (L : List Str) :
    ∀ (ls : List Str) (cur : Str),
      (∀ l ∈ ls, l ∈ L) →
      (cur.length ≤ n + 1 ∨ ∃ l ∈ L, cur = l ++ ['\n']) →
      ∀ chunk ∈ chunkLoop n ls cur,
        chunk.length ≤ n + 1 ∨ ∃ l ∈ L, chunk = l ++ ['\n'] := by
  intro ls
  induction ls with
  | nil =>
    intro cur _ hcur chunk hchunk
    simp only [chunkLoop] at hchunk
    split at hchunk
    · simp at hchunk
    · simp at hchunk
      subst hchunk
      exact hcur
  | cons l ls ih =>
    intro cur hmem hcur chunk hchunk
    simp only [chunkLoop] at hchunk
    split at hchunk
    · rcases List.mem_cons.mp hchunk with h | h
      · subst h; exact hcur
      · exact ih (l ++ ['\n'])
          (fun x hx => hmem x (by simp [hx]))
          (Or.inr ⟨l, hmem l (by simp), rfl⟩) chunk h
    · rename_i hle
      have hle' : cur.length + l.length ≤ n := Nat.le_of_not_lt hle
      exact ih (cur ++ l ++ ['\n'])
        (fun x hx => hmem x (by simp [hx]))
        (Or.inl (by
          simp only [List.length_append, List.length_singleton]
          omega)) chunk hchunk

/-- C10: for an input at most the chunk size, `chunkMarkdown` returns the
single chunk equal to the input unchanged; for a longer input, the
concatenation of the chunks equals the input with exactly one extra newline
appended (every input line becomes newline-terminated). -/
theorem C10_chunk_concat (md : Str) (n : Nat) :
    (md.length ≤ n → chunkMarkdown md n = [md]) ∧
    (n < md.length → (chunkMarkdown md n).flatten = md ++ ['\n']) :=
  ⟨chunkMarkdown_small md n, chunkMarkdown_join_of_long md n⟩

/-- Witness for C10 at concrete inputs: a short input is returned unchanged,
and a chunked input concatenates back to the input plus one newline. -/
theorem C10_chunk_concat_witness :
    chunkMarkdown "ab".toList 5 = ["ab".toList] ∧
    (chunkMarkdown "ab\ncd".toList 3).flatten = "ab\ncd".toList ++ ['\n'] :=
  ⟨(C10_chunk_concat "ab".toList 5).1 (by decide),
   (C10_chunk_concat "ab\ncd".toList 3).2 (by decide)⟩

/-- C8 counterexample: a single 20001-character line is chunked (at the
default chunk size 20000) into a chunk of 20002 characters, exceeding the
chunk size — the claim that every chunk has length at most the chunk size is
false on the code. -/
theorem C8_chunk_size_counterexample :
    List.replicate 20001 'a' ++ ['\n'] ∈
      chunkMarkdown (List.replicate 20001 'a') 20000 ∧
    20000 < (List.replicate 20001 'a' ++ ['\n']).length := by
  have hlen : (List.replicate 20001 'a').length = 20001 := List.length_replicate 20001 'a'
  have hne : List.replicate 20001 'a' ++ ['\n'] ≠ [] := by
    intro hemp
    have hl := congrArg List.length hemp
    rw [List.length_append, hlen] at hl
    exact absurd hl (by decide)
  constructor
  · have hs : splitNl (List.replicate 20001 'a') = [List.replicate 20001 'a'] :=
      splitNl_of_no_nl _ (fun c hc => by rw [List.eq_of_mem_replicate hc]; decide)
    simp only [chunkMarkdown]
    rw [if_neg (by rw [hlen]; decide), hs]
    simp only [chunkLoop]
    rw [if_pos (by rw [List.length_nil, hlen]; decide)]
    rw [if_neg hne]
    exact List.mem_cons_of_mem _ (List.mem_cons_self _ _)
  · rw [List.length_append, hlen]
    decide

/-- C8 (amended): chunk boundaries fall only at line boundaries — the chunk
list is the image under newline-joining of a partition of the input's lines
into contiguous groups — and every chunk has length at most `chunkSize + 1`,
except chunks consisting of a single newline-terminated input line (which a
line longer than the chunk size forces to be longer). -/
theorem C8_chunk_lines_amended (md : Str) (n : Nat) (h : n < md.length) :
    (∃ groups : List (List Str), groups.flatten = splitNl md ∧
        chunkMarkdown md n = groups.map joinNl) ∧
    (∀ chunk ∈ chunkMarkdown md n,
        chunk.length ≤ n + 1 ∨ ∃ l ∈ splitNl md, chunk = l ++ ['\n']) := by
  have hmd : chunkMarkdown md n = chunkLoop n (splitNl md) [] := by
    simp [chunkMarkdown, Nat.not_le_of_lt h]
  constructor
  · obtain ⟨groups, h1, h2⟩ := chunkLoop_groups n (splitNl md) []
    have hj : joinNl ([] : List Str) = [] := by simp [joinNl]
    rw [hj] at h2
    exact ⟨groups, by simpa using h1, by rw [hmd, h2]⟩
  · intro chunk hchunk
    rw [hmd] at hchunk
    exact chunkLoop_sizes n (splitNl md) (splitNl md) []
      (fun l hl => hl) (Or.inl (by simp)) chunk hchunk

/-- Witness for the amended C8 at a concrete over-long input. -/
theorem C8_chunk_lines_amended_witness :
    3 < "abcde\nf".toList.length ∧
    ((∃ groups : List (List Str), groups.flatten = splitNl "abcde\nf".toList ∧
        chunkMarkdown "abcde\nf".toList 3 = groups.map joinNl) ∧
     (∀ chunk ∈ chunkMarkdown "abcde\nf".toList 3,
        chunk.length ≤ 3 + 1 ∨
          ∃ l ∈ splitNl "abcde\nf".toList, chunk = l ++ ['\n'])) :=
  ⟨by decide, C8_chunk_lines_amended "abcde\nf".toList 3 (by decide)⟩

/-! ## Substring search and replacement (JS `includes` / `split(..).join(..)`) -/

/-- JavaScript `s.includes(pat)` (for nonempty `pat`). -/
def containsSub : Str → Str → Bool
  | s, pat =>
    if pat.isPrefixOf s then true
    else
      match s with
      | [] => false
      | _ :: rest => containsSub rest pat

/-- Fuelled scanner behind `replaceAllSub`; the fuel is an upper bound on
the string length, so the fuel-exhausted arm is never reached in use.
(Structural recursion on the fuel keeps the function kernel-reducible.) -/
def replaceAllGo (pat rep : Str) : Nat → Str → Str
  | _, [] => []
  | 0, s => s
  | fuel + 1, c :: rest =>
    if pat ≠ [] ∧ pat.isPrefixOf (c :: rest) then
      rep ++ replaceAllGo pat rep fuel ((c :: rest).drop pat.length)
    else
      c :: replaceAllGo pat rep fuel rest

/-- JavaScript `s.split(pat).join(rep)` for a nonempty `pat`: replace every
leftmost non-overlapping occurrence of `pat` by `rep`, resuming after each
match.  (The sources never call it with an empty pattern; for `pat = []`
this model leaves the string unchanged.) -/
def replaceAllSub (pat rep s : Str) : Str := replaceAllGo pat rep s.length s

/-! ## HTML escaping and the plain-text fallback

Embedding of `MarkdownRenderer.renderPlainText`
(`src/renderer/core/MarkdownRenderer.ts`): the three sequential global
replacements `& → &amp;`, `< → &lt;`, `> → &gt;` amount to the single
character-wise substitution below (the replacements introduce no further
`<` or `>`, and the `&` introduced by them is never re-examined). -/

/-- Character-wise HTML escaping: `&`, `<`, `>` to entities. -/
def escapeHtmlChar (c : Char) : Str :=
  if c = '&' then "&amp;".toList
  else if c = '<' then "&lt;".toList
  else if c = '>' then "&gt;".toList
  else [c]

/-- HTML-escape a string (the body of `renderPlainText`). -/
def escapeHtml (s : Str) : Str := (s.map escapeHtmlChar).flatten

/-- `MarkdownRenderer.renderPlainText`: escaped input wrapped in a `<pre>`. -/
def renderPlainText (markdown : Str) : Str :=
  "<pre class=\"markdown-fallback\">".toList ++ escapeHtml markdown ++ "</pre>".toList

theorem escapeHtml_no_lt (s : Str) : '<' ∉ escapeHtml s := by
  intro hmem
  simp only [escapeHtml, List.mem_flatten] at hmem
  obtain ⟨l, hl, hcl⟩ := hmem
  simp only [List.mem_map] at hl
  obtain ⟨c, _, rfl⟩ := hl
  simp only [escapeHtmlChar] at hcl
  split at hcl
  · revert hcl; decide
  · split at hcl
    · revert hcl; decide
    · split at hcl
      · revert hcl; decide
      · rename_i h1 h2 h3
        simp only [List.mem_singleton] at hcl
        exact h2 (hcl ▸ rfl)

theorem escapeHtml_no_gt (s : Str) : '>' ∉ escapeHtml s := by
  intro hmem
  simp only [escapeHtml, List.mem_flatten] at hmem
  obtain ⟨l, hl, hcl⟩ := hmem
  simp only [List.mem_map] at hl
  obtain ⟨c, _, rfl⟩ := hl
  simp only [escapeHtmlChar] at hcl
  split at hcl
  · revert hcl; decide
  · split at hcl
    · revert hcl; decide
    · split at hcl
      · revert hcl; decide
      · rename_i h1 h2 h3
        simp only [List.mem_singleton] at hcl
        exact h3 (hcl ▸ rfl)

/-! ## CircuitBreaker

Modelled from the spec: the implementation file
`src/renderer/resilience/CircuitBreaker.ts` is absent from the snapshot
(only its test file is present).  Spec §4.3: states CLOSED and OPEN;
`execute(operation, fallback)` in CLOSED invokes the operation, success
resets `failureCount` to 0, failure increments it (opening at threshold 3)
and returns the fallback; in OPEN it returns the fallback without invoking
the operation; `reset()` restores CLOSED/0. -/

/-- Circuit status: the only two states of the breaker. -/
inductive CBStatus where
  | CLOSED
  | OPEN
deriving DecidableEq, Repr

/-- Circuit breaker state: status plus consecutive-failure count. -/
structure CBState where
  status : CBStatus
  failureCount : Nat
deriving DecidableEq, Repr

/-- Freshly constructed breaker: CLOSED with zero failures. -/
def CBState.init : CBState := ⟨CBStatus.CLOSED, 0⟩

/-- Failure threshold at which the circuit opens. -/
def cbThreshold : Nat := 3

/-- Modelled from the spec: one `CircuitBreaker.execute(operation, fallback)`
call.  The operation's outcome is an `Except`; the result is the new breaker
state, the value returned to the caller, and whether the wrapped operation
was invoked. -/
def cbExecute {E A : Type} (s : CBState) (op : Except E A) (fallback : A) :
    CBState × A × Bool :=
  match s.status with
  | CBStatus.OPEN => (s, fallback, false)
  | CBStatus.CLOSED =>
    match op with
    | Except.ok v => (⟨CBStatus.CLOSED, 0⟩, v, true)
    | Except.error _ =>
      (⟨if cbThreshold ≤ s.failureCount + 1 then CBStatus.OPEN else CBStatus.CLOSED,
        s.failureCount + 1⟩, fallback, true)

/-- Modelled from the spec: `CircuitBreaker.reset()` restores CLOSED/0. -/
def cbReset (_ : CBState) : CBState := CBState.init

/-- Run a sequence of operations through the breaker, keeping only the state. -/
def cbRun {E A : Type} (s : CBState) (ops : List (Except E A)) (fallback : A) :
    CBState :=
  ops.foldl (fun st op => (cbExecute st op fallback).1) s

theorem cbRun_open {E A : Type} (fb : A) :
    ∀ (ops : List (Except E A)) (s : CBState), s.status = CBStatus.OPEN →
      cbRun s ops fb = s := by
  intro ops
  induction ops with
  | nil => intro s _; rfl
  | cons op ops ih =>
    intro s hs
    have hstep : (cbExecute s op fb).1 = s := by
      simp only [cbExecute, hs]
    simp only [cbRun, List.foldl_cons] at *
    rw [hstep]
    exact ih s hs

/-- C3: the circuit breaker's two-state machine.  In CLOSED, a success
resets the failure count to 0; a failure increments it and returns the
fallback, opening the circuit at the third consecutive failure (failures =
3); three consecutive failures from the initial state leave the breaker
OPEN with failures = 3; in OPEN, `execute` returns the fallback without
invoking the operation and leaves the state unchanged (so no sequence of
calls leaves OPEN); `reset()` restores CLOSED/0.  CLOSED and OPEN are the
only states of the `CBStatus` type. -/
theorem C3_circuit_breaker {E A : Type} (s : CBState) (op : Except E A)
    (v : A) (e : E) (fb : A) :
    (s.status = CBStatus.CLOSED →
      cbExecute s (Except.ok v : Except E A) fb
        = (⟨CBStatus.CLOSED, 0⟩, v, true)) ∧
    (s.status = CBStatus.CLOSED → s.failureCount + 1 < cbThreshold →
      cbExecute s (Except.error e : Except E A) fb
        = (⟨CBStatus.CLOSED, s.failureCount + 1⟩, fb, true)) ∧
    (s.status = CBStatus.CLOSED → cbThreshold ≤ s.failureCount + 1 →
      cbExecute s (Except.error e : Except E A) fb
        = (⟨CBStatus.OPEN, s.failureCount + 1⟩, fb, true)) ∧
    (cbRun CBState.init
        ([Except.error e, Except.error e, Except.error e] : List (Except E A)) fb
      = ⟨CBStatus.OPEN, 3⟩) ∧
    (s.status = CBStatus.OPEN → cbExecute s op fb = (s, fb, false)) ∧
    (∀ ops : List (Except E A), s.status = CBStatus.OPEN → cbRun s ops fb = s) ∧
    cbReset s = ⟨CBStatus.CLOSED, 0⟩ := by
  refine ⟨?_, ?_, ?_, ?_, ?_, ?_, rfl⟩
  · intro hs; simp only [cbExecute, hs]
  · intro hs hlt
    simp only [cbExecute, hs]
    rw [if_neg (Nat.not_le_of_lt hlt)]
  · intro hs hle
    simp only [cbExecute, hs]
    rw [if_pos hle]
  · rfl
  · intro hs; simp only [cbExecute, hs]
  · intro ops hs; exact cbRun_open fb ops s hs

/-- Witness for C3 at concrete states and operations. -/
theorem C3_circuit_breaker_witness :
    cbExecute (⟨CBStatus.CLOSED, 2⟩ : CBState)
        (Except.error 0 : Except Nat Nat) (7 : Nat)
        = (⟨CBStatus.OPEN, 3⟩, 7, true) ∧
    cbExecute (⟨CBStatus.OPEN, 3⟩ : CBState)
        (Except.ok 1 : Except Nat Nat) (7 : Nat)
        = (⟨CBStatus.OPEN, 3⟩, 7, false) :=
  ⟨(C3_circuit_breaker ⟨CBStatus.CLOSED, 2⟩ (Except.ok 1 : Except Nat Nat)
      1 0 7).2.2.1 rfl (by decide),
   (C3_circuit_breaker ⟨CBStatus.OPEN, 3⟩ (Except.ok 1 : Except Nat Nat)
      1 0 7).2.2.2.2.1 rfl⟩

/-! ## InputValidator

Modelled from the spec: the implementation file
`src/renderer/utils/InputValidator.ts` is absent from the snapshot (only
its test file is present).  Spec §4.4: a pure function
`validate(text, maxSize)` performing ordered checks — size (truncated echo
on failure), dangerous-content pattern match (escaped echo on failure),
nesting-depth scan (flattened echo on failure); the first failing check
wins and `sanitized` is always populated.  The default size ceiling is
1,000,000 and the test file bounds the truncated echo by the ceiling plus a
slack of 50. -/

/-- Result of `InputValidator.validate`. -/
structure ValidationResult where
  valid : Bool
  error : Option Str
  sanitized : Str
deriving DecidableEq, Repr

/-- Fixed slack allowed beyond `maxInputSize` for the truncated echo
(`InputValidator` test: echo length at most `1_000_050` for ceiling
`1_000_000`). -/
def TRUNCATION_SLACK : Nat := 50

/-- Modelled from the spec: marker appended to the truncated echo; its
length is within the fixed slack. -/
def truncationNotice : Str := "\n\n...[truncated]".toList

/-- Dangerous pattern: script-injection tag. -/
def scriptPat : Str := "<script".toList

/-- Dangerous pattern: dangerous URL scheme. -/
def jsUrlPat : Str := "javascript:".toList

/-- Modelled from the spec: dangerous-content detection (script tag or
dangerous URL scheme). -/
def hasDangerousContent (s : Str) : Bool :=
  containsSub s scriptPat || containsSub s jsUrlPat

/-- Bracket characters opening one nesting level. -/
def isOpenBracket (c : Char) : Bool := c = '[' || c = '('

/-- Bracket characters closing one nesting level. -/
def isCloseBracket (c : Char) : Bool := c = ']' || c = ')'

/-- Depth scan: current depth and running maximum. -/
def nestScan : Str → Nat → Nat → Nat
  | [], _, m => m
  | c :: rest, d, m =>
    if isOpenBracket c then nestScan rest (d + 1) (max m (d + 1))
    else if isCloseBracket c then nestScan rest (d - 1) m
    else nestScan rest d m

/-- Modelled from the spec: maximal bracket/paren nesting depth of a string. -/
def maxNesting (s : Str) : Nat := nestScan s 0 0

/-- Modelled from the spec: the nesting-depth bound (the test drives it with
depth 100, which must fail). -/
def MAX_NESTING_DEPTH : Nat := 20

/-- Modelled from the spec: flattened echo — brackets removed. -/
def flattenEcho (s : Str) : Str :=
  s.filter (fun c => !(isOpenBracket c || isCloseBracket c))

/-- Modelled from the spec: escaped echo for dangerous content — the
dangerous patterns are stripped (the test requires the echo to contain
neither pattern) and the remainder HTML-escaped. -/
def dangerEcho (s : Str) : Str :=
  escapeHtml (replaceAllSub jsUrlPat [] (replaceAllSub scriptPat [] s))

/-- Modelled from the spec: `InputValidator.validate(text, maxSize)` with its
three ordered checks; the first failing check determines the result. -/
def validate (text : Str) (maxSize : Nat) : ValidationResult :=
  if maxSize < text.length then
    ⟨false, some "CONTENT_TOO_LARGE".toList, text.take maxSize ++ truncationNotice⟩
  else if hasDangerousContent text then
    ⟨false, some "DANGEROUS_CONTENT".toList, dangerEcho text⟩
  else if MAX_NESTING_DEPTH < maxNesting text then
    ⟨false, some "NESTING_TOO_DEEP".toList, flattenEcho text⟩
  else
    ⟨true, none, text⟩

/-- C4: the three checks run in the fixed order size, dangerous-content,
nesting-depth, the first failing check determining the error; an over-long
input yields `CONTENT_TOO_LARGE` with a truncated echo of length at most
`maxSize` plus the fixed slack; `sanitized` is populated (a total field of
the result) on every path. -/
theorem C4_validator_order (text : Str) (maxSize : Nat) :
    (maxSize < text.length →
      validate text maxSize
        = ⟨false, some "CONTENT_TOO_LARGE".toList,
            text.take maxSize ++ truncationNotice⟩ ∧
      (validate text maxSize).sanitized.length ≤ maxSize + TRUNCATION_SLACK) ∧
    (text.length ≤ maxSize → hasDangerousContent text = true →
      validate text maxSize
        = ⟨false, some "DANGEROUS_CONTENT".toList, dangerEcho text⟩) ∧
    (text.length ≤ maxSize → hasDangerousContent text = false →
      MAX_NESTING_DEPTH < maxNesting text →
      validate text maxSize
        = ⟨false, some "NESTING_TOO_DEEP".toList, flattenEcho text⟩) ∧
    (text.length ≤ maxSize → hasDangerousContent text = false →
      maxNesting text ≤ MAX_NESTING_DEPTH →
      validate text maxSize = ⟨true, none, text⟩) := by
  refine ⟨?_, ?_, ?_, ?_⟩
  · intro hlt
    have heq : validate text maxSize
        = ⟨false, some "CONTENT_TOO_LARGE".toList,
            text.take maxSize ++ truncationNotice⟩ := by
      unfold validate
      rw [if_pos hlt]
    refine ⟨heq, ?_⟩
    rw [heq]
    simp only [List.length_append, List.length_take]
    have h1 : truncationNotice.length ≤ TRUNCATION_SLACK := by decide
    have h2 : min maxSize text.length ≤ maxSize := Nat.min_le_left _ _
    omega
  · intro hle hdang
    unfold validate
    rw [if_neg (Nat.not_lt.mpr hle), if_pos hdang]
  · intro hle hdang hnest
    unfold validate
    rw [if_neg (Nat.not_lt.mpr hle)]
    rw [if_neg (by rw [hdang]; exact Bool.false_ne_true), if_pos hnest]
  · intro hle hdang hnest
    unfold validate
    rw [if_neg (Nat.not_lt.mpr hle)]
    rw [if_neg (by rw [hdang]; exact Bool.false_ne_true)]
    rw [if_neg (Nat.not_lt.mpr hnest)]

/-- Witness for C4 at concrete inputs: an over-long input is rejected as
`CONTENT_TOO_LARGE` with a bounded echo; a dangerous-and-nested (but small)
input is rejected as `DANGEROUS_CONTENT` (order: dangerous before nesting). -/
theorem C4_validator_order_witness :
    (validate "abcdef".toList 3
        = ⟨false, some "CONTENT_TOO_LARGE".toList,
            "abcdef".toList.take 3 ++ truncationNotice⟩ ∧
      (validate "abcdef".toList 3).sanitized.length ≤ 3 + TRUNCATION_SLACK) ∧
    validate "javascript:x".toList 100
        = ⟨false, some "DANGEROUS_CONTENT".toList, dangerEcho "javascript:x".toList⟩ :=
  ⟨(C4_validator_order "abcdef".toList 3).1 (by decide),
   (C4_validator_order "javascript:x".toList 100).2.1 (by decide) (by decide)⟩

/-- The deeply nested input driven through the validator by its own test
suite: 100 opening brackets, `text`, 100 closing brackets. -/
def deepNestInput : Str :=
  List.replicate 100 '[' ++ "text".toList ++ List.replicate 100 ']'

set_option maxRecDepth 4000 in
/-- C5 counterexample: an input under the size ceiling and free of dangerous
patterns on which `validate` nonetheless fails (`NESTING_TOO_DEEP`), so its
echo is not the input — the claim that size and danger checks alone imply
acceptance is false. -/
theorem C5_validator_pass_counterexample :
    deepNestInput.length ≤ 1000000 ∧
    hasDangerousContent deepNestInput = false ∧
    (validate deepNestInput 1000000).valid = false ∧
    (validate deepNestInput 1000000).error = some "NESTING_TOO_DEEP".toList ∧
    (validate deepNestInput 1000000).sanitized ≠ deepNestInput := by
  refine ⟨by decide, by decide, ?_, ?_, ?_⟩ <;> decide

/-- C5 (amended): for every input under the size ceiling, free of dangerous
patterns, and whose bracket nesting depth is within the bound, validation
succeeds and the echo equals the input, character for character. -/
theorem C5_validator_pass_amended (text : Str) (maxSize : Nat)
    (h1 : text.length ≤ maxSize) (h2 : hasDangerousContent text = false)
    (h3 : maxNesting text ≤ MAX_NESTING_DEPTH) :
    validate text maxSize = ⟨true, none, text⟩ := by
  unfold validate
  rw [if_neg (Nat.not_lt.mpr h1)]
  rw [if_neg (by rw [h2]; exact Bool.false_ne_true)]
  rw [if_neg (Nat.not_lt.mpr h3)]

/-- Witness for the amended C5 at a concrete benign input. -/
theorem C5_validator_pass_amended_witness :
    validate "# Hello (world) [link]".toList 1000000
      = ⟨true, none, "# Hello (world) [link]".toList⟩ :=
  C5_validator_pass_amended "# Hello (world) [link]".toList 1000000
    (by decide) (by decide) (by decide)

/-! ## `MarkdownRenderer.preprocessFormulas`

Embedding of the two global regex replacements

```ts
markdown
  .replace(/\$([^$]+)\$([、，。；：！？])\$([^$]+)\$/g, '$$$1$$ $2 $$$3$$')
  .replace(/\$([^$]+)\$(——)\$([^$]+)\$/g, '$$$1$$ $2 $$$3$$')
```

Each pattern is deterministic: `[^$]+` is a maximal nonempty run of
non-`$` characters (no backtracking alternatives exist, since the next
pattern character is `$`).  Scanning is leftmost and resumes after each
match, as JS global `replace` does. -/

/-- The single-character CJK separators of the first replacement. -/
def isCjkPunct (c : Char) : Bool :=
  c = '、' || c = '，' || c = '。' || c = '；' || c = '：' || c = '！' || c = '？'

/-- Split a string at the first `$` (the regex atom `[^$]+` followed by `$`). -/
def spanNonDollar (s : Str) : Str × Str := s.span (fun c => c ≠ '$')

/-- Attempt to match `\$e1\$ p \$e2\$` (`p` a CJK punctuation character) at
the head of the string; on success return the groups and the rest. -/
def adjFormula1 (s : Str) : Option (Str × Char × Str × Str) :=
  match s with
  | [] => none
  | c :: rest =>
    if c = '$' then
      let sp1 := spanNonDollar rest
      if sp1.1 = [] then none
      else
        match sp1.2 with
        | d1 :: p :: d2 :: rest2 =>
          if d1 = '$' ∧ isCjkPunct p ∧ d2 = '$' then
            let sp2 := spanNonDollar rest2
            if sp2.1 = [] then none
            else
              match sp2.2 with
              | d3 :: rest3 => if d3 = '$' then some (sp1.1, p, sp2.1, rest3) else none
              | [] => none
          else none
        | _ => none
    else none

/-- Attempt to match `\$e1\$——\$e2\$` at the head of the string. -/
def adjFormula2 (s : Str) : Option (Str × Str × Str) :=
  match s with
  | [] => none
  | c :: rest =>
    if c = '$' then
      let sp1 := spanNonDollar rest
      if sp1.1 = [] then none
      else
        match sp1.2 with
        | d1 :: m1 :: m2 :: d2 :: rest2 =>
          if d1 = '$' ∧ m1 = '—' ∧ m2 = '—' ∧ d2 = '$' then
            let sp2 := spanNonDollar rest2
            if sp2.1 = [] then none
            else
              match sp2.2 with
              | d3 :: rest3 => if d3 = '$' then some (sp1.1, sp2.1, rest3) else none
              | [] => none
          else none
        | _ => none
    else none

theorem spanNonDollar_append (s : Str) :
    (spanNonDollar s).1 ++ (spanNonDollar s).2 = s := by
  simp only [spanNonDollar, List.span_eq_take_drop]
  exact List.takeWhile_append_dropWhile (fun c => decide (c ≠ '$')) s

theorem adjFormula1_spec (s : Str) (e1 : Str) (p : Char) (e2 rest3 : Str)
    (h : adjFormula1 s = some (e1, p, e2, rest3)) :
    s = '$' :: (e1 ++ '$' :: p :: '$' :: (e2 ++ '$' :: rest3)) := by
  cases s with
  | nil => exact absurd h (by simp [adjFormula1])
  | cons c rest =>
    simp only [adjFormula1] at h
    split at h
    case isFalse => exact absurd h (by simp)
    rename_i hc
    split at h
    case isTrue => exact absurd h (by simp)
    rename_i hne1
    split at h
    case h_2 => exact absurd h (by simp)
    rename_i d1 p' d2 rest2 hsp1
    split at h
    case isFalse => exact absurd h (by simp)
    rename_i hds
    split at h
    case isTrue => exact absurd h (by simp)
    rename_i hne2
    split at h
    case h_2 => exact absurd h (by simp)
    rename_i d3 rest3' hsp2
    split at h
    case isFalse => exact absurd h (by simp)
    rename_i hd3
    simp only [Option.some.injEq, Prod.mk.injEq] at h
    obtain ⟨he1, hp, he2, hr3⟩ := h
    obtain ⟨hd1, hpunct, hd2⟩ := hds
    subst hc hd1 hd2 hd3 hp hr3
    have k1 := spanNonDollar_append rest
    have k2 := spanNonDollar_append rest2
    rw [hsp1, he1] at k1
    rw [hsp2, he2] at k2
    rw [← k1, ← k2]

theorem adjFormula2_spec (s : Str) (e1 e2 rest3 : Str)
    (h : adjFormula2 s = some (e1, e2, rest3)) :
    s = '$' :: (e1 ++ '$' :: '—' :: '—' :: '$' :: (e2 ++ '$' :: rest3)) := by
  cases s with
  | nil => exact absurd h (by simp [adjFormula2])
  | cons c rest =>
    simp only [adjFormula2] at h
    split at h
    case isFalse => exact absurd h (by simp)
    rename_i hc
    split at h
    case isTrue => exact absurd h (by simp)
    rename_i hne1
    split at h
    case h_2 => exact absurd h (by simp)
    rename_i d1 m1 m2 d2 rest2 hsp1
    split at h
    case isFalse => exact absurd h (by simp)
    rename_i hds
    split at h
    case isTrue => exact absurd h (by simp)
    rename_i hne2
    split at h
    case h_2 => exact absurd h (by simp)
    rename_i d3 rest3' hsp2
    split at h
    case isFalse => exact absurd h (by simp)
    rename_i hd3
    simp only [Option.some.injEq, Prod.mk.injEq] at h
    obtain ⟨he1, he2, hr3⟩ := h
    obtain ⟨hd1, hm1, hm2, hd2⟩ := hds
    subst hc hd1 hm1 hm2 hd2 hd3 hr3
    have k1 := spanNonDollar_append rest
    have k2 := spanNonDollar_append rest2
    rw [hsp1, he1] at k1
    rw [hsp2, he2] at k2
    rw [← k1, ← k2]

theorem adjFormula1_rest_lt (s : Str) (e1 : Str) (p : Char) (e2 rest3 : Str)
    (h : adjFormula1 s = some (e1, p, e2, rest3)) : rest3.length < s.length := by
  rw [adjFormula1_spec s e1 p e2 rest3 h]
  simp only [List.length_cons, List.length_append]
  omega

theorem adjFormula2_rest_lt (s : Str) (e1 e2 rest3 : Str)
    (h : adjFormula2 s = some (e1, e2, rest3)) : rest3.length < s.length := by
  rw [adjFormula2_spec s e1 e2 rest3 h]
  simp only [List.length_cons, List.length_append]
  omega

/-- Fuelled scanner of the first replacement pass (fuel bounds the string
length, keeping the recursion structural and kernel-reducible). -/
def pass1Go : Nat → Str → Str
  | _, [] => []
  | 0, s => s
  | fuel + 1, c :: rest =>
    match adjFormula1 (c :: rest) with
    | some (e1, p, e2, rest3) =>
      '$' :: e1 ++ '$' :: ' ' :: p :: ' ' :: '$' :: e2 ++ '$' :: pass1Go fuel rest3
    | none => c :: pass1Go fuel rest

/-- First replacement pass: space out CJK-punctuation-separated adjacent
inline formulas. -/
def preprocessPass1 (s : Str) : Str := pass1Go s.length s

/-- Fuelled scanner of the second replacement pass. -/
def pass2Go : Nat → Str → Str
  | _, [] => []
  | 0, s => s
  | fuel + 1, c :: rest =>
    match adjFormula2 (c :: rest) with
    | some (e1, e2, rest3) =>
      '$' :: e1 ++ '$' :: ' ' :: '—' :: '—' :: ' ' :: '$' :: e2 ++ '$' :: pass2Go fuel rest3
    | none => c :: pass2Go fuel rest

/-- Second replacement pass: space out em-dash-pair-separated adjacent
inline formulas. -/
def preprocessPass2 (s : Str) : Str := pass2Go s.length s

/-- `MarkdownRenderer.preprocessFormulas`: both passes in order. -/
def preprocessFormulas (s : Str) : Str := preprocessPass2 (preprocessPass1 s)

/-! ## `MarkdownRenderer.renderWithTimeout` / `renderUnsafe` / `render`

The external `marked` parser is an oracle `mdParse : Str → Str`; the wall
clock is an oracle `elapsed : Nat → Nat`, giving the elapsed milliseconds
observed at the timeout check performed before processing chunk `i` (the
code checks `Date.now() - overallStart > timeout` at each chunk boundary).
The sanitizer capability is an oracle `sanitizer : Str → Str`.  Request
deduplication (`renderLock`) coalesces concurrent calls and is identity on
a single call, which is what is modelled here. -/

/-- Result value of `MarkdownRenderer.render`. -/
structure RenderResult where
  success : Bool
  html : Option Str
  error : Option Str
  fallback : Option Str
deriving DecidableEq, Repr

/-- Render options (the fields the pipeline branches on). -/
structure RenderOptions where
  maxInputSize : Nat
  maxOutputSize : Nat
  timeout : Nat
  sanitize : Bool
deriving DecidableEq, Repr

/-- `MarkdownRenderer.DEFAULT_OPTIONS`. -/
def defaultOptions : RenderOptions := ⟨1000000, 5000000, 3000, true⟩

/-- The chunk-processing loop of `renderWithTimeout`: before each chunk the
elapsed time is checked against the budget (`RENDER_TIMEOUT` on overrun);
otherwise the chunk is parsed and appended. -/
def renderChunks (mdParse : Str → Str) (elapsed : Nat → Nat) (timeout : Nat) :
    List Str → Nat → Str → Except Str Str
  | [], _, acc => Except.ok acc
  | chunk :: rest, i, acc =>
    if timeout < elapsed i then Except.error "RENDER_TIMEOUT".toList
    else renderChunks mdParse elapsed timeout rest (i + 1) (acc ++ mdParse chunk)

/-- `MarkdownRenderer.renderWithTimeout`: preprocess formulas, chunk at
20000 characters, then run the timed chunk loop. -/
def renderWithTimeout (markdown : Str) (timeout : Nat) (mdParse : Str → Str)
    (elapsed : Nat → Nat) : Except Str Str :=
  renderChunks mdParse elapsed timeout
    (chunkMarkdown (preprocessFormulas markdown) 20000) 0 []

/-- `MarkdownRenderer.renderUnsafe`: validation, timed chunked render,
output-size check, sanitization.  Thrown errors (timeout, output overflow)
are the `Except.error` branch, caught by the circuit breaker. -/
def renderUnsafe (markdown : Str) (opts : RenderOptions) (mdParse : Str → Str)
    (elapsed : Nat → Nat) (sanitizer : Str → Str) : Except Str RenderResult :=
  let validation := validate markdown opts.maxInputSize
  if validation.valid = false then
    Except.ok ⟨false, none, validation.error, some (renderPlainText validation.sanitized)⟩
  else
    match renderWithTimeout validation.sanitized opts.timeout mdParse elapsed with
    | Except.error e => Except.error e
    | Except.ok html =>
      if opts.maxOutputSize < html.length then
        Except.error "OUTPUT_TOO_LARGE".toList
      else
        Except.ok ⟨true, some (if opts.sanitize then sanitizer html else html), none, none⟩

/-- `MarkdownRenderer.render`: `renderUnsafe` under the circuit breaker,
whose caller-supplied fallback result is
`{success: false, error: 'CIRCUIT_OPEN', fallback: renderPlainText(markdown)}`. -/
def render (markdown : Str) (opts : RenderOptions) (mdParse : Str → Str)
    (elapsed : Nat → Nat) (sanitizer : Str → Str) (cb : CBState) :
    CBState × RenderResult :=
  let r := cbExecute cb (renderUnsafe markdown opts mdParse elapsed sanitizer)
    ⟨false, none, some "CIRCUIT_OPEN".toList, some (renderPlainText markdown)⟩
  (r.1, r.2.1)

theorem renderChunks_error_name (mdParse : Str → Str) (elapsed : Nat → Nat)
    (timeout : Nat) :
    ∀ (chunks : List Str) (i : Nat) (acc : Str) (e : Str),
      renderChunks mdParse elapsed timeout chunks i acc = Except.error e →
      e = "RENDER_TIMEOUT".toList := by
  intro chunks
  induction chunks with
  | nil => intro i acc e h; exact absurd h (by simp [renderChunks])
  | cons chunk rest ih =>
    intro i acc e h
    simp only [renderChunks] at h
    split at h
    · simpa using h.symm
    · exact ih (i + 1) (acc ++ mdParse chunk) e h

theorem cbExecute_open_val {E A : Type} (s : CBState) (op : Except E A) (fb : A)
    (h : s.status = CBStatus.OPEN) : (cbExecute s op fb).2.1 = fb := by
  simp only [cbExecute, h]

theorem cbExecute_closed_ok_val {E A : Type} (s : CBState) (v : A) (fb : A)
    (h : s.status = CBStatus.CLOSED) :
    (cbExecute s (Except.ok v : Except E A) fb).2.1 = v := by
  simp only [cbExecute, h]

theorem cbExecute_closed_error_val {E A : Type} (s : CBState) (e : E) (fb : A)
    (h : s.status = CBStatus.CLOSED) :
    (cbExecute s (Except.error e : Except E A) fb).2.1 = fb := by
  simp only [cbExecute, h]

/-- C1: `render` is a total function into the result shape
`{success, html?, error?, fallback?}` (it never escapes with an unhandled
error), and on every failure path — validation rejection, timeout, output
overflow, thrown parse error, or open circuit — the result's `fallback` is
the escaped plain-text rendering `renderPlainText s` of some string (the
validation echo or the original input): `&`, `<`, `>` are replaced by HTML
entities (so the escaped body contains no raw `<` or `>`) and the whole is
wrapped in a `<pre>` element. -/
theorem C1_render_failure_fallback (markdown : Str) (opts : RenderOptions)
    (mdParse : Str → Str) (elapsed : Nat → Nat) (sanitizer : Str → Str)
    (cb : CBState)
    (hfail : (render markdown opts mdParse elapsed sanitizer cb).2.success = false) :
    ∃ s : Str,
      (render markdown opts mdParse elapsed sanitizer cb).2.fallback
          = some (renderPlainText s) ∧
      '<' ∉ escapeHtml s ∧ '>' ∉ escapeHtml s := by
  cases hcb : cb.status with
  | OPEN =>
    refine ⟨markdown, ?_, escapeHtml_no_lt markdown, escapeHtml_no_gt markdown⟩
    have hres : (render markdown opts mdParse elapsed sanitizer cb).2
        = ⟨false, none, some "CIRCUIT_OPEN".toList, some (renderPlainText markdown)⟩ := by
      simp only [render]
      exact cbExecute_open_val _ _ _ hcb
    rw [hres]
  | CLOSED =>
    rcases hu : renderUnsafe markdown opts mdParse elapsed sanitizer with e | v
    · refine ⟨markdown, ?_, escapeHtml_no_lt markdown, escapeHtml_no_gt markdown⟩
      have hres : (render markdown opts mdParse elapsed sanitizer cb).2
          = ⟨false, none, some "CIRCUIT_OPEN".toList, some (renderPlainText markdown)⟩ := by
        simp only [render, hu]
        exact cbExecute_closed_error_val _ _ _ hcb
      rw [hres]
    · have hres : (render markdown opts mdParse elapsed sanitizer cb).2 = v := by
        simp only [render, hu]
        exact cbExecute_closed_ok_val _ _ _ hcb
      rw [hres] at hfail ⊢
      by_cases hval : (validate markdown opts.maxInputSize).valid = false
      · have hv : renderUnsafe markdown opts mdParse elapsed sanitizer
            = Except.ok ⟨false, none, (validate markdown opts.maxInputSize).error,
                some (renderPlainText (validate markdown opts.maxInputSize).sanitized)⟩ := by
          simp only [renderUnsafe]
          rw [if_pos hval]
        rw [hu] at hv
        simp only [Except.ok.injEq] at hv
        refine ⟨(validate markdown opts.maxInputSize).sanitized, ?_,
          escapeHtml_no_lt _, escapeHtml_no_gt _⟩
        rw [hv]
      · rcases hrt : renderWithTimeout (validate markdown opts.maxInputSize).sanitized
            opts.timeout mdParse elapsed with e' | html
        · have hv : renderUnsafe markdown opts mdParse elapsed sanitizer
              = Except.error e' := by
            simp only [renderUnsafe]
            rw [if_neg hval, hrt]
          rw [hu] at hv
          exact absurd hv (by simp)
        · by_cases hsize : opts.maxOutputSize < html.length
          · have hv : renderUnsafe markdown opts mdParse elapsed sanitizer
                = Except.error "OUTPUT_TOO_LARGE".toList := by
              simp only [renderUnsafe]
              rw [if_neg hval, hrt]
              exact if_pos hsize
            rw [hu] at hv
            exact absurd hv (by simp)
          · have hv : renderUnsafe markdown opts mdParse elapsed sanitizer
                = Except.ok ⟨true,
                    some (if opts.sanitize then sanitizer html else html), none, none⟩ := by
              simp only [renderUnsafe]
              rw [if_neg hval, hrt]
              exact if_neg hsize
            rw [hu] at hv
            simp only [Except.ok.injEq] at hv
            rw [hv] at hfail
            exact absurd hfail (by simp)

/-- Witness for C1: a dangerous input fails validation and the failure
result carries the escaped `<pre>` fallback. -/
theorem C1_render_failure_fallback_witness :
    (render "<script>x".toList defaultOptions (fun s => s) (fun _ => 0)
        (fun s => s) CBState.init).2.success = false ∧
    ∃ s : Str,
      (render "<script>x".toList defaultOptions (fun s => s) (fun _ => 0)
          (fun s => s) CBState.init).2.fallback = some (renderPlainText s) ∧
      '<' ∉ escapeHtml s ∧ '>' ∉ escapeHtml s :=
  ⟨by decide,
   C1_render_failure_fallback "<script>x".toList defaultOptions (fun s => s)
     (fun _ => 0) (fun s => s) CBState.init (by decide)⟩

/-- C2 counterexample: with a clock that reports 5000 ms elapsed at the
first chunk boundary and the default 3000 ms budget, the inner chunked
render rejects with `RENDER_TIMEOUT`, but `render` resolves with
`error = 'CIRCUIT_OPEN'` (the circuit breaker's caller-supplied fallback),
not `'RENDER_TIMEOUT'` — the result's error field does not name the actual
failure cause. -/
theorem C2_error_name_counterexample :
    renderWithTimeout "hello".toList 3000 (fun s => s) (fun _ => 5000)
        = Except.error "RENDER_TIMEOUT".toList ∧
    (render "hello".toList defaultOptions (fun s => s) (fun _ => 5000)
        (fun s => s) CBState.init).2.success = false ∧
    (render "hello".toList defaultOptions (fun s => s) (fun _ => 5000)
        (fun s => s) CBState.init).2.error = some "CIRCUIT_OPEN".toList ∧
    "CIRCUIT_OPEN".toList ≠ "RENDER_TIMEOUT".toList := by
  refine ⟨by rfl, by decide, by decide, by decide⟩

/-- C2 (amended): when the chunked render exceeds the timeout budget the
inner pipeline (`renderWithTimeout`/`renderUnsafe`) fails with exactly
`RENDER_TIMEOUT`, and when the rendered HTML exceeds the output ceiling it
fails with exactly `OUTPUT_TOO_LARGE` — the taxonomy name is delivered to
the circuit breaker — but `render` itself (in the CLOSED state) resolves
with `success = false` and `error = 'CIRCUIT_OPEN'`, the breaker's
caller-supplied fallback result, together with the escaped plain-text
fallback of the input. -/
theorem C2_error_name_amended (markdown : Str) (opts : RenderOptions)
    (mdParse : Str → Str) (elapsed : Nat → Nat) (sanitizer : Str → Str)
    (cb : CBState) (hcb : cb.status = CBStatus.CLOSED)
    (hvalid : ¬ (validate markdown opts.maxInputSize).valid = false) :
    (∀ e : Str,
      renderWithTimeout (validate markdown opts.maxInputSize).sanitized
          opts.timeout mdParse elapsed = Except.error e →
      e = "RENDER_TIMEOUT".toList ∧
      renderUnsafe markdown opts mdParse elapsed sanitizer = Except.error e ∧
      (render markdown opts mdParse elapsed sanitizer cb).2
        = ⟨false, none, some "CIRCUIT_OPEN".toList,
            some (renderPlainText markdown)⟩) ∧
    (∀ html : Str,
      renderWithTimeout (validate markdown opts.maxInputSize).sanitized
          opts.timeout mdParse elapsed = Except.ok html →
      opts.maxOutputSize < html.length →
      renderUnsafe markdown opts mdParse elapsed sanitizer
        = Except.error "OUTPUT_TOO_LARGE".toList ∧
      (render markdown opts mdParse elapsed sanitizer cb).2
        = ⟨false, none, some "CIRCUIT_OPEN".toList,
            some (renderPlainText markdown)⟩) := by
  constructor
  · intro e hrt
    have hname : e = "RENDER_TIMEOUT".toList :=
      renderChunks_error_name mdParse elapsed opts.timeout _ 0 [] e hrt
    have hunchk : renderUnsafe markdown opts mdParse elapsed sanitizer
        = Except.error e := by
      simp only [renderUnsafe]
      rw [if_neg hvalid, hrt]
    refine ⟨hname, hunchk, ?_⟩
    simp only [render, hunchk]
    exact cbExecute_closed_error_val _ _ _ hcb
  · intro html hrt hsize
    have hunchk : renderUnsafe markdown opts mdParse elapsed sanitizer
        = Except.error "OUTPUT_TOO_LARGE".toList := by
      simp only [renderUnsafe]
      rw [if_neg hvalid, hrt]
      exact if_pos hsize
    refine ⟨hunchk, ?_⟩
    simp only [render, hunchk]
    exact cbExecute_closed_error_val _ _ _ hcb

/-- Witness for the amended C2: a concrete timed-out render delivers
`RENDER_TIMEOUT` internally and `CIRCUIT_OPEN` in the result. -/
theorem C2_error_name_amended_witness :
    "RENDER_TIMEOUT".toList = "RENDER_TIMEOUT".toList ∧
    renderUnsafe "hello".toList defaultOptions (fun s => s) (fun _ => 5000)
        (fun s => s) = Except.error "RENDER_TIMEOUT".toList ∧
    (render "hello".toList defaultOptions (fun s => s) (fun _ => 5000)
        (fun s => s) CBState.init).2
      = ⟨false, none, some "CIRCUIT_OPEN".toList,
          some (renderPlainText "hello".toList)⟩ :=
  (C2_error_name_amended "hello".toList defaultOptions (fun s => s)
      (fun _ => 5000) (fun s => s) CBState.init rfl (by decide)).1
    "RENDER_TIMEOUT".toList (by rfl)

/-! ## C7: adjacent inline formulas separated by CJK punctuation -/

/-- A CJK-punctuation-separated adjacent formula pair occurs somewhere in
the string (the first replacement's pattern matches at some position). -/
def hasAdjPair1 : Str → Bool
  | [] => false
  | c :: rest => (adjFormula1 (c :: rest)).isSome || hasAdjPair1 rest

theorem spanNonDollar_append_dollar (e r : Str) (he : ∀ c ∈ e, c ≠ '$') :
    spanNonDollar (e ++ '$' :: r) = (e, '$' :: r) := by
  induction e with
  | nil => simp [spanNonDollar, List.span_eq_take_drop, List.takeWhile, List.dropWhile]
  | cons c cs ih =>
    have hc : c ≠ '$' := he c (by simp)
    have ih' := ih (fun d hd => he d (by simp [hd]))
    simp only [spanNonDollar, List.span_eq_take_drop, Prod.mk.injEq] at ih' ⊢
    simp only [List.cons_append, List.takeWhile_cons, List.dropWhile_cons]
    rw [if_pos (by simpa using hc), if_pos (by simpa using hc)]
    exact ⟨by rw [ih'.1], ih'.2⟩

theorem adjFormula1_exact (e1 e2 : Str) (p : Char)
    (h1 : e1 ≠ []) (h2 : ∀ c ∈ e1, c ≠ '$') (h3 : e2 ≠ [])
    (h4 : ∀ c ∈ e2, c ≠ '$') (hp : isCjkPunct p = true) :
    adjFormula1 ('$' :: (e1 ++ '$' :: p :: '$' :: (e2 ++ ['$'])))
      = some (e1, p, e2, []) := by
  have hs1 := spanNonDollar_append_dollar e1 (p :: '$' :: (e2 ++ ['$'])) h2
  have hs2 : spanNonDollar (e2 ++ ['$']) = (e2, ['$']) :=
    spanNonDollar_append_dollar e2 [] h4
  simp only [adjFormula1, hs1, hs2, if_pos rfl]
  simp [h1, h3, hp]

theorem pass1Go_nil (n : Nat) : pass1Go n [] = [] := by
  cases n <;> rfl

theorem pass2Go_nil (n : Nat) : pass2Go n [] = [] := by
  cases n <;> rfl

theorem adjFormula2_none_of_head_ne (c : Char) (rest : Str) (hc : c ≠ '$') :
    adjFormula2 (c :: rest) = none := by
  simp only [adjFormula2]
  rw [if_neg hc]

theorem isCjkPunct_ne_dollar (p : Char) (hp : isCjkPunct p = true) : p ≠ '$' := by
  intro h
  subst h
  exact absurd hp (by decide)

/-- If the second pattern matches nowhere (at no suffix), the second pass is
the identity. -/
theorem pass2Go_id : ∀ (t : Str) (fuel : Nat),
    (∀ u : Str, u <:+ t → adjFormula2 u = none) → pass2Go fuel t = t := by
  intro t
  induction t with
  | nil => intro fuel _; exact pass2Go_nil fuel
  | cons c rest ih =>
    intro fuel h
    cases fuel with
    | zero => rfl
    | succ n =>
      simp only [pass2Go]
      rw [h (c :: rest) (List.suffix_refl _)]
      rw [ih n (fun u hu => h u (hu.trans (List.suffix_cons c rest)))]

theorem suffix_append_cases : ∀ (x y u : Str), u <:+ x ++ y →
    u <:+ y ∨ ∃ x' : Str, x' <:+ x ∧ x' ≠ [] ∧ u = x' ++ y := by
  intro x
  induction x with
  | nil => intro y u h; exact Or.inl (by simpa using h)
  | cons c xs ih =>
    intro y u h
    rcases h with ⟨t, ht⟩
    cases t with
    | nil =>
      exact Or.inr ⟨c :: xs, List.suffix_refl _, by simp, by simpa using ht⟩
    | cons d ts =>
      have ht2 := ht
      simp only [List.cons_append, List.cons.injEq] at ht2
      rcases ih y u ⟨ts, ht2.2⟩ with h1 | ⟨x', hx1, hx2, hx3⟩
      · exact Or.inl h1
      · exact Or.inr ⟨x', hx1.trans (List.suffix_cons c xs), hx2, hx3⟩

/-- No suffix of the spaced two-formula string matches the em-dash pattern,
so the second pass leaves it unchanged. -/
theorem spaced_no_adjFormula2 (e1 e2 : Str) (p : Char)
    (h2 : ∀ c ∈ e1, c ≠ '$') (h4 : ∀ c ∈ e2, c ≠ '$')
    (hp : isCjkPunct p = true) :
    ∀ u : Str,
      u <:+ '$' :: (e1 ++ '$' :: ' ' :: p :: ' ' :: '$' :: (e2 ++ ['$'])) →
      adjFormula2 u = none := by
  have hpd := isCjkPunct_ne_dollar p hp
  intro u hu
  rcases List.suffix_cons_iff.mp hu with hw | hu1
  · -- the whole string: the separator region is " p ", not "——"
    subst hw
    have hs1 := spanNonDollar_append_dollar e1 (' ' :: p :: ' ' :: '$' :: (e2 ++ ['$'])) h2
    by_cases he1 : e1 = []
    · subst he1
      simp +decide [adjFormula2, spanNonDollar, List.span_eq_take_drop]
    · simp +decide [adjFormula2, hs1, he1]
  · rcases suffix_append_cases e1 _ u hu1 with hu2 | ⟨x', hx1, hx2, hx3⟩
    · -- u is a suffix of "$ p $e2$" (with the spaces)
      rcases List.suffix_cons_iff.mp hu2 with hw | hu3
      · -- u = '$' :: ' ' :: p :: ' ' :: '$' :: (e2 ++ ['$'])
        subst hw
        cases e2 with
        | nil => simp +decide [adjFormula2, spanNonDollar, List.span_eq_take_drop, hpd]
        | cons a as =>
          cases as with
          | nil => simp +decide [adjFormula2, spanNonDollar, List.span_eq_take_drop, hpd]
          | cons b bs =>
            cases bs with
            | nil =>
              simp +decide [adjFormula2, spanNonDollar, List.span_eq_take_drop, hpd]
            | cons x xs =>
              have hx : x ≠ '$' := h4 x (by simp)
              simp +decide [adjFormula2, spanNonDollar, List.span_eq_take_drop, hpd, hx]
      · rcases List.suffix_cons_iff.mp hu3 with hw | hu4
        · subst hw; exact adjFormula2_none_of_head_ne _ _ (by decide)
        · rcases List.suffix_cons_iff.mp hu4 with hw | hu5
          · subst hw; exact adjFormula2_none_of_head_ne _ _ hpd
          · rcases List.suffix_cons_iff.mp hu5 with hw | hu6
            · subst hw; exact adjFormula2_none_of_head_ne _ _ (by decide)
            · rcases List.suffix_cons_iff.mp hu6 with hw | hu7
              · -- u = '$' :: (e2 ++ ['$']): only one more '$', no match
                subst hw
                have hsp := spanNonDollar_append_dollar e2 [] h4
                by_cases he2 : e2 = []
                · subst he2
                  simp +decide [adjFormula2, hsp]
                · simp +decide [adjFormula2, hsp, he2]
              · rcases suffix_append_cases e2 ['$'] u hu7 with hu8 | ⟨y', hy1, hy2, hy3⟩
                · rcases List.suffix_cons_iff.mp hu8 with hw | hu9
                  · subst hw; rfl
                  · have hnil : u = [] := by simpa using hu9
                    subst hnil; rfl
                · cases y' with
                  | nil => exact absurd rfl hy2
                  | cons d ds =>
                    subst hy3
                    exact adjFormula2_none_of_head_ne _ _
                      (h4 d (hy1.mem (by simp)))
    · cases x' with
      | nil => exact absurd rfl hx2
      | cons d ds =>
        subst hx3
        exact adjFormula2_none_of_head_ne _ _ (h2 d (hx1.mem (by simp)))

/-- C7 counterexample: three inline formulas separated by two CJK commas;
the global replacement matches non-overlappingly, so only the first comma is
spaced and the pair `$b$、$c$` remains adjacent in the normalized output —
the claim that a space is inserted around every such punctuation mark (and
hence that every N ≥ 2 chain is fully separated) is false. -/
theorem C7_adjacent_formulas_counterexample :
    preprocessFormulas "$a$、$b$、$c$".toList = "$a$ 、 $b$、$c$".toList ∧
    hasAdjPair1 "$a$ 、 $b$、$c$".toList = true := by
  exact ⟨by rfl, by rfl⟩

/-- C7 (amended): the normalization spaces the separator of each leftmost
non-overlapping match; in particular for N = 2 — two nonempty inline
formulas separated by a single CJK punctuation mark — the output always
carries the inserted spaces around the separator (while in chains of N ≥ 3
formulas consecutive separators can survive unspaced, as the
counterexample shows). -/
theorem C7_adjacent_formulas_amended (e1 e2 : Str) (p : Char)
    (h1 : e1 ≠ []) (h2 : ∀ c ∈ e1, c ≠ '$') (h3 : e2 ≠ [])
    (h4 : ∀ c ∈ e2, c ≠ '$') (hp : isCjkPunct p = true) :
    preprocessFormulas ('$' :: (e1 ++ '$' :: p :: '$' :: (e2 ++ ['$'])))
      = '$' :: (e1 ++ '$' :: ' ' :: p :: ' ' :: '$' :: (e2 ++ ['$'])) := by
  have hadj := adjFormula1_exact e1 e2 p h1 h2 h3 h4 hp
  have hpass1 : preprocessPass1 ('$' :: (e1 ++ '$' :: p :: '$' :: (e2 ++ ['$'])))
      = '$' :: (e1 ++ '$' :: ' ' :: p :: ' ' :: '$' :: (e2 ++ ['$'])) := by
    unfold preprocessPass1
    simp only [List.length_cons]
    simp only [pass1Go, hadj]
    simp
  unfold preprocessFormulas
  rw [hpass1]
  unfold preprocessPass2
  exact pass2Go_id _ _ (spaced_no_adjFormula2 e1 e2 p h2 h4 hp)

/-- Witness for the amended C7 at concrete formulas. -/
theorem C7_adjacent_formulas_amended_witness :
    preprocessFormulas "$x+1$，$y$".toList = "$x+1$ ， $y$".toList :=
  C7_adjacent_formulas_amended "x+1".toList "y".toList '，'
    (by decide) (by decide) (by decide) (by decide) (by decide)

/-! ## C6: placeholder maps and placeholder restoration

The conversion pipelines insert counter-generated placeholder tokens into
intermediate text and restore them before returning:
* `MathExtractor.restore`, the table-math restore and the deep-research
  restore all use `markdown.split(placeholder).join(formatted)`
  (`replaceAllSub` here);
* the list-math restore (`markdown-parser.ts`, `extractContentBlocks`)
  instead replaces only whole lines matching `^[ \t]*PLACEHOLDER[ \t]*$`
  (multiline) with the flush-left block formula. -/

/-- Decimal digit to character (the digits produced by `Nat.digits 10` are
all below 10; the final arm is unreachable in use). -/
def digitChar (d : Nat) : Char :=
  if d = 0 then '0' else if d = 1 then '1' else if d = 2 then '2'
  else if d = 3 then '3' else if d = 4 then '4' else if d = 5 then '5'
  else if d = 6 then '6' else if d = 7 then '7' else if d = 8 then '8' else '9'

/-- Character back to digit value. -/
def charDigit (c : Char) : Nat := c.toNat - 48

/-- Decimal representation of a natural number (JavaScript `${n}`):
most-significant digit first, `"0"` for zero. -/
def natDec (n : Nat) : Str :=
  if n = 0 then ['0'] else ((Nat.digits 10 n).map digitChar).reverse

/-- `MathExtractor.generatePlaceholder`: the id `{{MATH-<counter>}}`. -/
def mathPlaceholder (i : Nat) : Str :=
  "\x7b\x7bMATH-".toList ++ natDec i ++ "\x7d\x7d".toList

theorem charDigit_digitChar (d : Nat) (h : d < 10) :
    charDigit (digitChar d) = d := by
  interval_cases d <;> rfl

theorem natDec_inj (m n : Nat) (h : natDec m = natDec n) : m = n := by
  have base : ∀ a : Nat, a ≠ 0 →
      ((Nat.digits 10 a).map digitChar).reverse = ['0'] → False := by
    intro a ha hrev
    have h1 : (Nat.digits 10 a).map digitChar = ['0'] := by
      have := congrArg List.reverse hrev
      simpa using this
    have hne : Nat.digits 10 a ≠ [] := Nat.digits_ne_nil_iff_ne_zero.mpr ha
    cases hd : Nat.digits 10 a with
    | nil => exact hne hd
    | cons d ds =>
      rw [hd] at h1
      simp only [List.map_cons, List.cons.injEq] at h1
      have hds : ds = [] := by simpa using h1.2
      subst hds
      have hdlt : d < 10 := Nat.digits_lt_base (by norm_num) (by rw [hd]; simp)
      have hd0 : d = 0 := by
        have := congrArg charDigit h1.1
        rwa [charDigit_digitChar d hdlt] at this
      have ha' : a = Nat.ofDigits 10 [d] := by
        conv_lhs => rw [← Nat.ofDigits_digits 10 a]
        rw [hd]
      rw [hd0] at ha'
      simp [Nat.ofDigits] at ha'
      exact ha ha'
  by_cases hm : m = 0 <;> by_cases hn : n = 0
  · rw [hm, hn]
  · exfalso
    simp only [natDec, if_pos hm, if_neg hn] at h
    exact base n hn h.symm
  · exfalso
    simp only [natDec, if_neg hm, if_pos hn] at h
    exact base m hm h
  · simp only [natDec, if_neg hm, if_neg hn] at h
    have h2 : (Nat.digits 10 m).map digitChar = (Nat.digits 10 n).map digitChar :=
      List.reverse_injective h
    have hmap : ∀ a : Nat,
        ((Nat.digits 10 a).map digitChar).map charDigit = Nat.digits 10 a := by
      intro a
      rw [List.map_map]
      have : ∀ d ∈ Nat.digits 10 a, (charDigit ∘ digitChar) d = id d := by
        intro d hd
        exact charDigit_digitChar d (Nat.digits_lt_base (by norm_num) hd)
      rw [List.map_congr_left this, List.map_id]
    have h3 : Nat.digits 10 m = Nat.digits 10 n := by
      rw [← hmap m, ← hmap n, h2]
    calc m = Nat.ofDigits 10 (Nat.digits 10 m) := (Nat.ofDigits_digits 10 m).symm
    _ = Nat.ofDigits 10 (Nat.digits 10 n) := by rw [h3]
    _ = n := Nat.ofDigits_digits 10 n

theorem mathPlaceholder_inj (i j : Nat) (h : mathPlaceholder i = mathPlaceholder j) :
    i = j := by
  apply natDec_inj
  unfold mathPlaceholder at h
  have h1 := List.append_cancel_right h
  exact List.append_cancel_left h1

/-! Occurrence replacement by `split(..).join(..)` -/

theorem replaceAllGo_nil (pat rep : Str) (fuel : Nat) :
    replaceAllGo pat rep fuel [] = [] := by
  cases fuel <;> rfl

theorem replaceAllGo_fuel (pat rep : Str) :
    ∀ (n : Nat) (s : Str), s.length ≤ n → ∀ fuel fuel',
      s.length ≤ fuel → s.length ≤ fuel' →
      replaceAllGo pat rep fuel s = replaceAllGo pat rep fuel' s := by
  intro n
  induction n with
  | zero =>
    intro s hs fuel fuel' _ _
    have hnil : s = [] := List.length_eq_zero.mp (Nat.le_zero.mp hs)
    subst hnil
    rw [replaceAllGo_nil, replaceAllGo_nil]
  | succ n ih =>
    intro s hs fuel fuel' h1 h2
    cases s with
    | nil => rw [replaceAllGo_nil, replaceAllGo_nil]
    | cons c rest =>
      cases fuel with
      | zero => simp at h1
      | succ f =>
        cases fuel' with
        | zero => simp at h2
        | succ f' =>
          simp only [replaceAllGo]
          by_cases hcond : pat ≠ [] ∧ pat.isPrefixOf (c :: rest)
          · rw [if_pos hcond, if_pos hcond]
            have hplen : 0 < pat.length := List.length_pos.mpr hcond.1
            have hdrop : ((c :: rest).drop pat.length).length ≤ rest.length := by
              simp only [List.length_drop, List.length_cons]
              omega
            simp only [List.length_cons] at hs h1 h2
            rw [ih ((c :: rest).drop pat.length) (by omega) f f' (by omega) (by omega)]
          · rw [if_neg hcond, if_neg hcond]
            simp only [List.length_cons] at hs h1 h2
            rw [ih rest (by omega) f f' (by omega) (by omega)]

theorem replaceAllSub_isolated (pat rep : Str) (hpat : pat ≠ []) :
    ∀ (s0 s1 : Str),
      (∀ k, k < s0.length → pat.isPrefixOf (s0.drop k ++ (pat ++ s1)) = false) →
      replaceAllSub pat rep (s0 ++ (pat ++ s1))
        = s0 ++ rep ++ replaceAllSub pat rep s1 := by
  have main : ∀ (s0 s1 : Str) (fuel : Nat),
      (s0 ++ (pat ++ s1)).length ≤ fuel →
      (∀ k, k < s0.length → pat.isPrefixOf (s0.drop k ++ (pat ++ s1)) = false) →
      replaceAllGo pat rep fuel (s0 ++ (pat ++ s1))
        = s0 ++ rep ++ replaceAllSub pat rep s1 := by
    intro s0
    induction s0 with
    | nil =>
      intro s1 fuel hfuel _
      cases hp : pat with
      | nil => exact absurd hp hpat
      | cons p pt =>
        rw [← hp]
        have hlen : 0 < (pat ++ s1).length := by
          rw [hp]; simp
        cases fuel with
        | zero => simp only [List.nil_append] at hfuel; omega
        | succ f =>
          have hcons : pat ++ s1 = p :: (pt ++ s1) := by rw [hp]; simp
          simp only [List.nil_append]
          rw [hcons]
          simp only [replaceAllGo]
          rw [if_pos ⟨hpat, by
            rw [List.isPrefixOf_iff_prefix, ← hcons]
            exact List.prefix_append pat s1⟩]
          have hdrop : (p :: (pt ++ s1)).drop pat.length = s1 := by
            rw [← hcons]
            exact List.drop_left pat s1
          rw [hdrop]
          simp only [List.nil_append] at hfuel
          rw [hcons] at hfuel
          simp only [List.length_cons] at hfuel
          have hplen : pat.length = pt.length + 1 := by rw [hp]; simp
          have hs1f : s1.length ≤ f := by
            simp only [List.length_append] at hfuel
            omega
          rw [replaceAllGo_fuel pat rep s1.length s1 (Nat.le_refl _) f s1.length hs1f
            (Nat.le_refl _)]
          rfl
    | cons c s0' ih =>
      intro s1 fuel hfuel hiso
      cases fuel with
      | zero => simp at hfuel
      | succ f =>
        simp only [List.cons_append, replaceAllGo, List.append_eq]
        rw [if_neg (by
          intro hcond
          have := hiso 0 (by simp)
          simp only [List.drop_zero, List.cons_append] at this
          rw [hcond.2] at this
          exact absurd this (by decide))]
        simp only [List.cons_append, List.length_cons] at hfuel
        rw [ih s1 f (by omega)
          (fun k hk => by
            have := hiso (k + 1) (by simp; omega)
            simpa using this)]

  intro s0 s1 hiso
  exact main s0 s1 (s0 ++ (pat ++ s1)).length (Nat.le_refl _) hiso

/-! The line-anchored list-math restore -/

/-- Space or tab (the `[ \t]` class of the restore regex). -/
def isWsChar (c : Char) : Bool := c = ' ' || c = '\t'

/-- The restore regex `^[ \t]*PLACEHOLDER[ \t]*$` matches a line: optional
blanks, the placeholder, optional blanks, and nothing else.  (The
placeholders of the source start with `_`, never with a blank.) -/
def lineIsBare (pat l : Str) : Bool :=
  pat.isPrefixOf (l.dropWhile isWsChar)
    && ((l.dropWhile isWsChar).drop pat.length).all isWsChar

/-- JavaScript `lines.join('\n')`. -/
def joinSep : List Str → Str
  | [] => []
  | [l] => l
  | l :: ls => l ++ '\n' :: joinSep ls

/-- The flush-left block-formula replacement `'\n\n$$\n' + latex + '\n$$\n\n'`. -/
def blockWrap (latex : Str) : Str :=
  "\n\n$$\n".toList ++ latex ++ "\n$$\n\n".toList

/-- One pass of the list-math restore (`markdown-parser.ts`): replace every
line consisting solely of the placeholder (with optional surrounding
blanks) by the flush-left block formula; leave every other line unchanged. -/
def restoreListOne (pat latex m : Str) : Str :=
  joinSep ((splitNl m).map (fun l => if lineIsBare pat l then blockWrap latex else l))

theorem splitNl_append_nl (l rest : Str) (hl : ∀ c ∈ l, c ≠ '\n') :
    splitNl (l ++ '\n' :: rest) = l :: splitNl rest := by
  induction l with
  | nil => simp [splitNl]
  | cons c cs ih =>
    simp only [List.cons_append, splitNl, List.append_eq]
    rw [if_neg (hl c (by simp))]
    rw [ih (fun d hd => hl d (by simp [hd]))]

theorem splitNl_joinSep (lines : List Str) (hne : lines ≠ [])
    (hnl : ∀ l ∈ lines, ∀ c ∈ l, c ≠ '\n') :
    splitNl (joinSep lines) = lines := by
  induction lines with
  | nil => exact absurd rfl hne
  | cons l ls ih =>
    cases ls with
    | nil =>
      simp only [joinSep]
      exact splitNl_of_no_nl l (hnl l (by simp))
    | cons l2 ls2 =>
      have hstep : joinSep (l :: l2 :: ls2) = l ++ '\n' :: joinSep (l2 :: ls2) := rfl
      rw [hstep, splitNl_append_nl l _ (hnl l (by simp))]
      rw [ih (by simp) (fun x hx c hc => hnl x (by simp [hx]) c hc)]

/-- C6 counterexample: a placeholder hoisted out of a list lands on a line
with the list marker (`- __LISTBLOCKMATH_0__`); the line-anchored restore
regex does not match such a line, so the placeholder is not replaced and
survives into the returned Markdown — the claim that no placeholder remains
in the output is false. -/
theorem C6_placeholder_counterexample :
    restoreListOne "__LISTBLOCKMATH_0__".toList "E=mc^2".toList
        "- __LISTBLOCKMATH_0__".toList
      = "- __LISTBLOCKMATH_0__".toList ∧
    containsSub "- __LISTBLOCKMATH_0__".toList "__LISTBLOCKMATH_0__".toList
      = true :=
  ⟨by rfl, by rfl⟩

/-- C6 (amended): every placeholder has exactly one map entry (the
counter-generated ids are injective); the `split/join`-based restores
(tables, inline math, katex errors, `MathExtractor.restore`) replace each
isolated occurrence of a placeholder by its formatted string, continuing
after it; and the list-path restore rewrites exactly the lines consisting
solely of the placeholder (with optional blanks) to the flush-left block,
leaving every other line — in particular a placeholder embedded in a line
with other text — unchanged, so such a placeholder can remain in the
output. -/
theorem C6_placeholder_amended :
    (∀ i j : Nat, mathPlaceholder i = mathPlaceholder j → i = j) ∧
    (∀ (pat rep s0 s1 : Str), pat ≠ [] →
      (∀ k, k < s0.length → pat.isPrefixOf (s0.drop k ++ (pat ++ s1)) = false) →
      replaceAllSub pat rep (s0 ++ (pat ++ s1))
        = s0 ++ rep ++ replaceAllSub pat rep s1) ∧
    (∀ (pat latex : Str) (lines : List Str), lines ≠ [] →
      (∀ l ∈ lines, ∀ c ∈ l, c ≠ '\n') →
      restoreListOne pat latex (joinSep lines)
        = joinSep (lines.map
            (fun l => if lineIsBare pat l then blockWrap latex else l))) := by
  refine ⟨mathPlaceholder_inj, ?_, ?_⟩
  · intro pat rep s0 s1 hpat hiso
    exact replaceAllSub_isolated pat rep hpat s0 s1 hiso
  · intro pat latex lines hne hnl
    unfold restoreListOne
    rw [splitNl_joinSep lines hne hnl]

/-- Witness for the amended C6: distinct placeholder ids, a concrete
isolated table-math replacement, and a concrete list restore replacing the
bare line but not the embedded one. -/
theorem C6_placeholder_amended_witness :
    (mathPlaceholder 3 = mathPlaceholder 3 → (3 : Nat) = 3) ∧
    replaceAllSub "__X__".toList "$y$".toList
        ("| ".toList ++ ("__X__".toList ++ " |".toList))
      = "| ".toList ++ "$y$".toList ++ replaceAllSub "__X__".toList "$y$".toList " |".toList ∧
    restoreListOne "__P__".toList "z".toList
        (joinSep ["__P__".toList, "- __P__".toList])
      = joinSep ([["__P__".toList, "- __P__".toList].headI].map
          (fun l => if lineIsBare "__P__".toList l then blockWrap "z".toList else l)
          ++ [if lineIsBare "__P__".toList "- __P__".toList then blockWrap "z".toList
              else "- __P__".toList]) := by
  refine ⟨(C6_placeholder_amended.1 3 3), ?_, ?_⟩
  · exact C6_placeholder_amended.2.1 "__X__".toList "$y$".toList "| ".toList
      " |".toList (by decide) (by decide)
  · have := C6_placeholder_amended.2.2 "__P__".toList "z".toList
      ["__P__".toList, "- __P__".toList] (by simp) (by decide)
    simpa using this

/-! ## C9: `MarkdownParser.postProcess`

Embedding of `src/content/parsers/markdown-parser.ts`, `postProcess`, step
by step:
0. `^(    )+` (per line): each group of 4 leading spaces becomes 2;
1. list-marker indent normalization (per line);
2. `trimEnd` per line;
3. strip `:contentReference[oaicite:N]{index=N}`;
4. strip domain names (`\b[a-zA-Z0-9-]+\.[a-zA-Z0-9-]+\.[a-zA-Z]{2,}\b`),
   `name+digits` references, `OUP Academic|OUP|developers` plus trailing
   whitespace; per line collapse 2+ interior spaces; collapse `..`+ runs;
   drop isolated ` . `;
5. collapse 3+ newlines to 2;
6. insert a blank line before a heading whose preceding character is
   neither a newline nor `$`;
7. collapse 3+ newlines again;
8. `trim()` and append exactly one newline.

All scanners are fuelled by the string length (never exhausted in use) so
they stay kernel-reducible. -/

/-- JavaScript `\s` (the members expressible in this model). -/
def isJsWs (c : Char) : Bool :=
  c = ' ' || c = '\t' || c = '\n' || c = '\r' || c = '\x0b' || c = '\x0c'

/-- ASCII digit (`\d`). -/
def isDigitChar (c : Char) : Bool := '0' ≤ c && c ≤ '9'

/-- ASCII letter. -/
def isAlphaC (c : Char) : Bool := ('a' ≤ c && c ≤ 'z') || ('A' ≤ c && c ≤ 'Z')

/-- JavaScript word character (`\w`), deciding `\b` boundaries. -/
def isWordC (c : Char) : Bool := isAlphaC c || isDigitChar c || c = '_'

/-- Length of the leading run of a character. -/
def leadRun (ch : Char) : Str → Nat
  | [] => 0
  | c :: rest => if c = ch then leadRun ch rest + 1 else 0

/-- Per-line transforms applied via `split('\n')`/`join('\n')` (as the
`/gm` regexes and the explicit line loops of the source do). -/
def mapLines (f : Str → Str) (s : Str) : Str :=
  joinSep ((splitNl s).map f)

/-- Step 0 (per line): `^(    )+` replaced by half as many spaces; the
`s % 4` spaces beyond the matched groups survive after the replacement. -/
def fixIndent4Line (l : Str) : Str :=
  let s := leadRun ' ' l
  if 4 ≤ s then List.replicate (2 * (s / 4) + s % 4) ' ' ++ l.drop s
  else l

/-- Step 1: split a line `^( *)([*-]|\d+\.)\s` into indent width, marker and
remainder (after the single matched `\s`). -/
def listMarkerSplit (l : Str) : Option (Nat × Str × Str) :=
  let ind := leadRun ' ' l
  let t := l.drop ind
  match t with
  | [] => none
  | c :: rest =>
    if c = '*' ∨ c = '-' then
      match rest with
      | [] => none
      | w :: rest2 => if isJsWs w then some (ind, [c], rest2) else none
    else if isDigitChar c then
      let ds := t.takeWhile isDigitChar
      match t.drop ds.length with
      | '.' :: w :: rest3 => if isJsWs w then some (ind, ds ++ ['.'], rest3) else none
      | _ => none
    else none

/-- Step 1: the normalized indent width (`Math.round(n / 2) * 2` for
`n ≥ 4`; 2 for `1 ≤ n ≤ 3`; 0 for `n = 0`). -/
def normIndentWidth (n : Nat) : Nat :=
  if n = 0 then 0
  else if n ≤ 3 then 2
  else 2 * ((n + 1) / 2)

/-- Step 1 (per line): normalize a list-item line. -/
def normListLine (l : Str) : Str :=
  match listMarkerSplit l with
  | some (ind, marker, rest) =>
    List.replicate (normIndentWidth ind) ' ' ++ marker ++ ' ' :: rest
  | none => l

/-- Step 2 (per line): `trimEnd()`. -/
def trimEndLine (l : Str) : Str := (l.reverse.dropWhile isJsWs).reverse

/-- Drop a literal prefix, or fail. -/
def dropLit (lit s : Str) : Option Str :=
  if lit.isPrefixOf s then some (s.drop lit.length) else none

/-- Step 3: match `:contentReference[oaicite:\d+]{index=\d+}` at the head;
return the remainder. -/
def matchCitation (s : Str) : Option Str :=
  match dropLit ":contentReference[oaicite:".toList s with
  | none => none
  | some r1 =>
    let ds := r1.takeWhile isDigitChar
    if ds = [] then none
    else
      match dropLit "]\x7bindex=".toList (r1.drop ds.length) with
      | none => none
      | some r2 =>
        let ds2 := r2.takeWhile isDigitChar
        if ds2 = [] then none
        else
          match r2.drop ds2.length with
          | '\x7d' :: rest => some rest
          | _ => none

/-- Step 3 scanner. -/
def removeCitationsGo : Nat → Str → Str
  | _, [] => []
  | 0, s => s
  | fuel + 1, c :: rest =>
    match matchCitation (c :: rest) with
    | some r => removeCitationsGo fuel r
    | none => c :: removeCitationsGo fuel rest

/-- Step 3: strip all citation markers. -/
def removeCitations (s : Str) : Str := removeCitationsGo s.length s

/-- Step 4a: character class `[a-zA-Z0-9-]`. -/
def isDomA (c : Char) : Bool := isAlphaC c || isDigitChar c || c = '-'

/-- Step 4a: match the domain pattern at the head of `s` (`pw` is whether
the previous character is a word character, for the `\b` checks);
the runs are maximal, since no backtracking alternative can succeed. -/
def matchDomainAt (pw : Bool) (s : Str) : Option Str :=
  match s with
  | [] => none
  | c :: _ =>
    if pw = isWordC c then none
    else
      let a1 := s.takeWhile isDomA
      if a1 = [] then none
      else
        match s.drop a1.length with
        | '.' :: r1 =>
          let a2 := r1.takeWhile isDomA
          if a2 = [] then none
          else
            match r1.drop a2.length with
            | '.' :: r2 =>
              let ls := r2.takeWhile isAlphaC
              if ls.length < 2 then none
              else
                match r2.drop ls.length with
                | [] => some []
                | d :: rest => if isWordC d then none else some (d :: rest)
            | _ => none
        | _ => none

/-- Step 4a scanner (tracking the word-ness of the previous character). -/
def removeDomainsGo : Nat → Bool → Str → Str
  | _, _, [] => []
  | 0, _, s => s
  | fuel + 1, pw, c :: rest =>
    match matchDomainAt pw (c :: rest) with
    | some r => removeDomainsGo fuel true r
    | none => c :: removeDomainsGo fuel (isWordC c) rest

/-- Step 4a: strip long domain names. -/
def removeDomains (s : Str) : Str := removeDomainsGo s.length false s

/-- Step 4b: character class `[a-zA-Z0-9._-]`. -/
def isRefB (c : Char) : Bool :=
  isAlphaC c || isDigitChar c || c = '.' || c = '_' || c = '-'

/-- Step 4b: match `\b[a-zA-Z0-9._-]+\+\d+\b` at the head. -/
def matchPlusRefAt (pw : Bool) (s : Str) : Option Str :=
  match s with
  | [] => none
  | c :: _ =>
    if pw = isWordC c then none
    else
      let b1 := s.takeWhile isRefB
      if b1 = [] then none
      else
        match s.drop b1.length with
        | '+' :: r1 =>
          let ds := r1.takeWhile isDigitChar
          if ds = [] then none
          else
            match r1.drop ds.length with
            | [] => some []
            | d :: rest => if isWordC d then none else some (d :: rest)
        | _ => none

/-- Step 4b scanner. -/
def removePlusRefsGo : Nat → Bool → Str → Str
  | _, _, [] => []
  | 0, _, s => s
  | fuel + 1, pw, c :: rest =>
    match matchPlusRefAt pw (c :: rest) with
    | some r => removePlusRefsGo fuel true r
    | none => c :: removePlusRefsGo fuel (isWordC c) rest

/-- Step 4b: strip `name+digits` references. -/
def removePlusRefs (s : Str) : Str := removePlusRefsGo s.length false s

/-- Step 4c: match `\b(OUP Academic|OUP|developers)\s*` at the head;
return the new previous-word-ness and the remainder. -/
def matchOUPAt (pw : Bool) (s : Str) : Option (Bool × Str) :=
  match s with
  | [] => none
  | c :: _ =>
    if pw = isWordC c then none
    else
      match dropLit "OUP Academic".toList s with
      | some r =>
        let r' := r.dropWhile isJsWs
        some (r'.length = r.length, r')
      | none =>
        match dropLit "OUP".toList s with
        | some r =>
          let r' := r.dropWhile isJsWs
          some (r'.length = r.length, r')
        | none =>
          match dropLit "developers".toList s with
          | some r =>
            let r' := r.dropWhile isJsWs
            some (r'.length = r.length, r')
          | none => none

/-- Step 4c scanner. -/
def removeOUPGo : Nat → Bool → Str → Str
  | _, _, [] => []
  | 0, _, s => s
  | fuel + 1, pw, c :: rest =>
    match matchOUPAt pw (c :: rest) with
    | some (pw', r) => removeOUPGo fuel pw' r
    | none => c :: removeOUPGo fuel (isWordC c) rest

/-- Step 4c: strip academic-source names. -/
def removeOUP (s : Str) : Str := removeOUPGo s.length false s

/-- Steps 4d/4e share this scanner: collapse every run of 2 or more
copies of `ch` to a single `ch` (`X{2,}` → `X`). -/
def collapseRunsGo (ch : Char) : Nat → Str → Str
  | _, [] => []
  | 0, s => s
  | fuel + 1, c :: rest =>
    if c = ch then
      let run := leadRun ch (c :: rest)
      ch :: collapseRunsGo ch fuel ((c :: rest).drop run)
    else c :: collapseRunsGo ch fuel rest

/-- Step 4d (per line): keep the `^(\s*)` indent, collapse interior
2+-space runs of the rest. `.*` does not match a carriage return, so the
tail of a line after an interior `\r` is dropped by the replacement. -/
def cleanLineSpaces (l : Str) : Str :=
  let ind := l.takeWhile isJsWs
  let content := (l.drop ind.length).takeWhile (fun c => !(c = '\r'))
  ind ++ collapseRunsGo ' ' content.length content

/-- Step 4e on the whole string: `\.{2,}` → `.`. -/
def collapseDots (s : Str) : Str := collapseRunsGo '.' s.length s

/-- Step 4f: ` . ` → ` ` (non-overlapping, resuming after the match). -/
def fixDotsGo : Nat → Str → Str
  | _, [] => []
  | 0, s => s
  | fuel + 1, c :: rest =>
    if c = ' ' ∧ rest.take 2 = ['.', ' '] then ' ' :: fixDotsGo fuel (rest.drop 2)
    else c :: fixDotsGo fuel rest

/-- Step 4f on the whole string. -/
def fixDots (s : Str) : Str := fixDotsGo s.length s

/-- Steps 5 and 7: collapse runs of 3+ newlines to exactly 2. -/
def collapseNlGo : Nat → Str → Str
  | _, [] => []
  | 0, s => s
  | fuel + 1, c :: rest =>
    if c = '\n' then
      let run := leadRun '\n' (c :: rest)
      (if 3 ≤ run then ['\n', '\n'] else List.replicate run '\n')
        ++ collapseNlGo fuel ((c :: rest).drop run)
    else c :: collapseNlGo fuel rest

/-- Steps 5 and 7 on the whole string. -/
def collapseNl (s : Str) : Str := collapseNlGo s.length s

/-- A string starts with a heading marker: 1–6 `#` then a space
(`#{1,6} ` with the backtracking of the bounded repeat resolved). -/
def headingAux : Nat → Str → Bool
  | _, [] => false
  | k, c :: rest =>
    if c = '#' then headingAux (k + 1) rest
    else c = ' ' && 1 ≤ k && k ≤ 6

/-- `#{1,6} ` matches at the head of the string. -/
def startsHeadingB (s : Str) : Bool := headingAux 0 s

/-- Step 6: `([^\n$])\n(#{1,6} )` → `$1\n\n$2`; the match consumes the
heading marker, so scanning resumes after it. -/
def fixHeadingsGo : Nat → Str → Str
  | _, [] => []
  | 0, s => s
  | fuel + 1, c :: rest =>
    if c ≠ '\n' ∧ c ≠ '$' ∧ rest.head? = some '\n' ∧ startsHeadingB (rest.drop 1) then
      let k := leadRun '#' (rest.drop 1)
      c :: '\n' :: '\n' ::
        (List.replicate k '#' ++ ' ' :: fixHeadingsGo fuel ((rest.drop 1).drop (k + 1)))
    else c :: fixHeadingsGo fuel rest

/-- Step 6 on the whole string. -/
def fixHeadings (s : Str) : Str := fixHeadingsGo s.length s

/-- Step 8: JavaScript `trim()`. -/
def trimJs (s : Str) : Str :=
  ((s.dropWhile isJsWs).reverse.dropWhile isJsWs).reverse

/-- `MarkdownParser.postProcess`: the full chain. -/
def postProcess (markdown : Str) : Str :=
  let r2 := mapLines trimEndLine
    (mapLines normListLine (mapLines fixIndent4Line markdown))
  let r4c := removeOUP (removePlusRefs (removeDomains (removeCitations r2)))
  let r4f := fixDots (collapseDots (mapLines cleanLineSpaces r4c))
  let r7 := collapseNl (fixHeadings (collapseNl r4f))
  trimJs r7 ++ ['\n']

/-- Forbidden pattern of (part of) C9: a space or tab immediately before a
newline — i.e. a line with trailing blanks. -/
def wsNlPair : Str → Bool
  | [] => false
  | [_] => false
  | c :: d :: rest => ((c = ' ' || c = '\t') && d = '\n') || wsNlPair (d :: rest)

/-- Forbidden pattern: the last character is a space or tab. -/
def endWsT (s : Str) : Bool :=
  match s.getLast? with
  | some c => c = ' ' || c = '\t'
  | none => false

/-- Forbidden pattern: three consecutive newlines. -/
def hasTripleB : Str → Bool
  | [] => false
  | c :: rest => (c = '\n' && rest.take 2 = ['\n', '\n']) || hasTripleB rest

/-- Forbidden pattern of the heading rule: a heading marker right after a
newline whose preceding character is neither a newline nor `$` — i.e. a
heading line (other than the first line) preceded by a line that is neither
blank nor `$`-terminated. -/
def badHeading : Str → Bool
  | [] => false
  | c :: rest =>
    (rest.head? = some '\n' && !(c = '\n') && !(c = '$')
      && startsHeadingB (rest.drop 1)) || badHeading rest

/-! ### Leading-run and trim utilities -/

theorem leadRun_cons_self (ch : Char) (rest : Str) :
    leadRun ch (ch :: rest) = leadRun ch rest + 1 := by
  simp [leadRun]

theorem leadRun_le_length (ch : Char) : ∀ s : Str, leadRun ch s ≤ s.length := by
  intro s
  induction s with
  | nil => simp [leadRun]
  | cons c rest ih =>
    simp only [leadRun, List.length_cons]
    split
    · omega
    · omega

theorem leadRun_take (ch : Char) :
    ∀ s : Str, s.take (leadRun ch s) = List.replicate (leadRun ch s) ch := by
  intro s
  induction s with
  | nil => simp [leadRun]
  | cons c rest ih =>
    by_cases h : c = ch
    · subst h
      rw [leadRun_cons_self]
      simp [List.replicate_succ, ih]
    · simp [leadRun, h]

/-- A string is its leading `ch`-run followed by the rest. -/
theorem eq_replicate_append_drop (ch : Char) (s : Str) :
    s = List.replicate (leadRun ch s) ch ++ s.drop (leadRun ch s) := by
  conv_lhs => rw [← List.take_append_drop (leadRun ch s) s]
  rw [leadRun_take]

theorem leadRun_drop_head (ch : Char) :
    ∀ s : Str, (s.drop (leadRun ch s)).head? ≠ some ch := by
  intro s
  induction s with
  | nil => simp [leadRun]
  | cons c rest ih =>
    by_cases h : c = ch
    · subst h
      rw [leadRun_cons_self]
      simpa using ih
    · simp [leadRun, h]

/-- Dropping the whole leading run but keeping its last element is a
suffix. -/
theorem cons_drop_suffix (ch : Char) :
    ∀ s : Str, s.head? = some ch → ch :: s.drop (leadRun ch s) <:+ s := by
  intro s
  induction s with
  | nil => intro h; simp at h
  | cons c rest ih =>
    intro h
    have hc : c = ch := by simpa using h
    subst hc
    rw [leadRun_cons_self, List.drop_succ_cons]
    by_cases hr : rest.head? = some c
    · exact (ih hr).trans (List.suffix_cons c rest)
    · have h0 : leadRun c rest = 0 := by
        cases rest with
        | nil => simp [leadRun]
        | cons d rest2 =>
          have hd : ¬ d = c := fun hd => hr (by simp [hd])
          simp [leadRun, hd]
      rw [h0, List.drop_zero]

theorem dropWhile_head_not (p : Char → Bool) :
    ∀ l : Str, l.dropWhile p = [] ∨ ∃ c t, l.dropWhile p = c :: t ∧ p c = false := by
  intro l
  induction l with
  | nil => left; rfl
  | cons c rest ih =>
    by_cases h : p c
    · simpa [List.dropWhile_cons, h] using ih
    · right
      exact ⟨c, rest, by simp [List.dropWhile_cons, h], by simpa using h⟩

theorem drop_length_takeWhile (p : Char → Bool) :
    ∀ l : Str, l.drop (l.takeWhile p).length = l.dropWhile p := by
  intro l
  induction l with
  | nil => rfl
  | cons c rest ih =>
    by_cases h : p c
    · simp [List.takeWhile_cons, List.dropWhile_cons, h, ih]
    · simp [List.takeWhile_cons, List.dropWhile_cons, h]

/-- `trim()` output is empty or ends in a non-blank. -/
theorem trimJs_last (s : Str) :
    trimJs s = [] ∨ ∃ c, (trimJs s).getLast? = some c ∧ isJsWs c = false := by
  unfold trimJs
  rcases dropWhile_head_not isJsWs ((s.dropWhile isJsWs).reverse) with h | ⟨c, t, h, hc⟩
  · left; rw [h]; rfl
  · right
    refine ⟨c, ?_, hc⟩
    rw [h, List.getLast?_reverse]
    rfl

/-- `trim()` output is a prefix of a suffix of the input. -/
theorem trimJs_eq (s : Str) : ∃ a : Str, a <:+ s ∧ trimJs s <+: a := by
  refine ⟨s.dropWhile isJsWs, List.dropWhile_suffix isJsWs, ?_⟩
  obtain ⟨u, hu⟩ := List.dropWhile_suffix (l := (s.dropWhile isJsWs).reverse) isJsWs
  refine ⟨u.reverse, ?_⟩
  have h2 : s.dropWhile isJsWs
      = (u ++ ((s.dropWhile isJsWs).reverse).dropWhile isJsWs).reverse := by
    rw [hu, List.reverse_reverse]
  rw [h2, List.reverse_append]
  rfl

theorem getLast?_cons_ne_nil (a : Char) {l : Str} (h : l ≠ []) :
    (a :: l).getLast? = l.getLast? := by
  cases l with
  | nil => exact absurd rfl h
  | cons b t => exact List.getLast?_cons_cons

/-! ### Head and last preservation of the global scanners -/

theorem collapseRunsGo_nil (ch : Char) (fuel : Nat) :
    collapseRunsGo ch fuel [] = [] := by
  cases fuel <;> rfl

theorem fixDotsGo_nil (fuel : Nat) : fixDotsGo fuel [] = [] := by
  cases fuel <;> rfl

theorem collapseNlGo_nil (fuel : Nat) : collapseNlGo fuel [] = [] := by
  cases fuel <;> rfl

theorem fixHeadingsGo_nil (fuel : Nat) : fixHeadingsGo fuel [] = [] := by
  cases fuel <;> rfl

theorem collapseRunsGo_head (ch : Char) (fuel : Nat) (s : Str) :
    (collapseRunsGo ch fuel s).head? = s.head? := by
  cases s with
  | nil => rw [collapseRunsGo_nil]
  | cons c rest =>
    cases fuel with
    | zero => rfl
    | succ m =>
      by_cases h : c = ch
      · simp [collapseRunsGo, h]
      · simp [collapseRunsGo, h]

theorem fixDotsGo_head (fuel : Nat) (s : Str) :
    (fixDotsGo fuel s).head? = s.head? := by
  cases s with
  | nil => rw [fixDotsGo_nil]
  | cons c rest =>
    cases fuel with
    | zero => rfl
    | succ m =>
      by_cases h : c = ' ' ∧ rest.take 2 = ['.', ' ']
      · simp [fixDotsGo, h, h.1]
      · simp [fixDotsGo, h]

theorem collapseNlGo_head (fuel : Nat) (s : Str) :
    (collapseNlGo fuel s).head? = s.head? := by
  cases s with
  | nil => rw [collapseNlGo_nil]
  | cons c rest =>
    cases fuel with
    | zero => rfl
    | succ m =>
      by_cases h : c = '\n'
      · simp only [collapseNlGo, if_pos h]
        subst h
        rw [leadRun_cons_self]
        split
        · rfl
        · simp [List.replicate_succ]
      · simp [collapseNlGo, h]

theorem fixHeadingsGo_head (fuel : Nat) (s : Str) :
    (fixHeadingsGo fuel s).head? = s.head? := by
  cases s with
  | nil => rw [fixHeadingsGo_nil]
  | cons c rest =>
    cases fuel with
    | zero => rfl
    | succ m =>
      simp only [fixHeadingsGo]
      split
      · rfl
      · rfl

theorem collapseRunsGo_ne_nil (ch : Char) (fuel : Nat) (c : Char) (rest : Str) :
    collapseRunsGo ch fuel (c :: rest) ≠ [] := by
  intro hemp
  have hh := collapseRunsGo_head ch fuel (c :: rest)
  rw [hemp] at hh
  simp at hh

theorem fixDotsGo_ne_nil (fuel : Nat) (c : Char) (rest : Str) :
    fixDotsGo fuel (c :: rest) ≠ [] := by
  intro hemp
  have hh := fixDotsGo_head fuel (c :: rest)
  rw [hemp] at hh
  simp at hh

theorem collapseNlGo_ne_nil (fuel : Nat) (c : Char) (rest : Str) :
    collapseNlGo fuel (c :: rest) ≠ [] := by
  intro hemp
  have hh := collapseNlGo_head fuel (c :: rest)
  rw [hemp] at hh
  simp at hh

theorem fixHeadingsGo_ne_nil (fuel : Nat) (c : Char) (rest : Str) :
    fixHeadingsGo fuel (c :: rest) ≠ [] := by
  intro hemp
  have hh := fixHeadingsGo_head fuel (c :: rest)
  rw [hemp] at hh
  simp at hh

theorem collapseRunsGo_getLast (ch : Char) :
    ∀ fuel s, s.length ≤ fuel →
      (collapseRunsGo ch fuel s).getLast? = s.getLast? := by
  intro fuel
  induction fuel using Nat.strong_induction_on with
  | _ fuel ih =>
    intro s hs
    cases s with
    | nil => rw [collapseRunsGo_nil]
    | cons c rest =>
      cases fuel with
      | zero => simp at hs
      | succ m =>
        by_cases h : c = ch
        · subst h
          simp only [collapseRunsGo, if_pos rfl]
          have h1 : 1 ≤ leadRun c (c :: rest) := by rw [leadRun_cons_self]; omega
          cases hz : (c :: rest).drop (leadRun c (c :: rest)) with
          | nil =>
            rw [if_pos trivial, collapseRunsGo_nil]
            have hrep := eq_replicate_append_drop c (c :: rest)
            rw [hz, List.append_nil] at hrep
            obtain ⟨k, hk⟩ : ∃ k, leadRun c (c :: rest) = k + 1 :=
              ⟨_, (Nat.succ_pred_eq_of_pos h1).symm⟩
            have hlast : (c :: rest).getLast? = some c := by
              conv_lhs => rw [hrep, hk, List.replicate_succ']
              exact List.getLast?_concat _
            rw [hlast]
            rfl
          | cons d z' =>
            rw [if_pos trivial]
            have hlen : (d :: z').length ≤ m := by
              have hlz : (d :: z').length
                  = (c :: rest).length - leadRun c (c :: rest) := by
                rw [← hz, List.length_drop]
              have hle := leadRun_le_length c (c :: rest)
              simp only [List.length_cons] at hlz hs hle ⊢
              omega
            rw [getLast?_cons_ne_nil _ (collapseRunsGo_ne_nil c m d z'),
              ih m (Nat.lt_succ_self m) _ hlen]
            have hrhs : (c :: rest).getLast? = (d :: z').getLast? := by
              conv_lhs => rw [eq_replicate_append_drop c (c :: rest), hz]
              exact List.getLast?_append_of_ne_nil _ (by simp)
            rw [hrhs]
        · simp only [collapseRunsGo, if_neg h]
          cases rest with
          | nil => rw [collapseRunsGo_nil]
          | cons d r2 =>
            have hlen : (d :: r2).length ≤ m := by
              simp only [List.length_cons] at hs ⊢
              omega
            rw [getLast?_cons_ne_nil _ (collapseRunsGo_ne_nil ch m d r2),
              ih m (Nat.lt_succ_self m) _ hlen, List.getLast?_cons_cons]

theorem fixDotsGo_getLast :
    ∀ fuel s, s.length ≤ fuel → (fixDotsGo fuel s).getLast? = s.getLast? := by
  intro fuel
  induction fuel using Nat.strong_induction_on with
  | _ fuel ih =>
    intro s hs
    cases s with
    | nil => rw [fixDotsGo_nil]
    | cons c rest =>
      cases fuel with
      | zero => simp at hs
      | succ m =>
        by_cases h : c = ' ' ∧ rest.take 2 = ['.', ' ']
        · simp only [fixDotsGo, if_pos h]
          obtain ⟨r, hr⟩ : ∃ r, rest = '.' :: ' ' :: r := by
            cases rest with
            | nil => simp at h
            | cons a rest1 =>
              cases rest1 with
              | nil => simp [List.take] at h
              | cons b rest2 =>
                have hab : a = '.' ∧ b = ' ' := by
                  have h2 := h.2
                  simp [List.take] at h2
                  exact h2
                exact ⟨rest2, by rw [hab.1, hab.2]⟩
          subst hr
          have hdrop : ('.' :: ' ' :: r).drop 2 = r := rfl
          rw [hdrop]
          cases r with
          | nil =>
            rw [fixDotsGo_nil, h.1]
            simp
          | cons d r2 =>
            have hlen : (d :: r2).length ≤ m := by
              simp only [List.length_cons] at hs ⊢
              omega
            rw [getLast?_cons_ne_nil _ (fixDotsGo_ne_nil m d r2),
              ih m (Nat.lt_succ_self m) _ hlen]
            simp [List.getLast?_cons_cons]
        · simp only [fixDotsGo, if_neg h]
          cases rest with
          | nil => rw [fixDotsGo_nil]
          | cons d r2 =>
            have hlen : (d :: r2).length ≤ m := by
              simp only [List.length_cons] at hs ⊢
              omega
            rw [getLast?_cons_ne_nil _ (fixDotsGo_ne_nil m d r2),
              ih m (Nat.lt_succ_self m) _ hlen, List.getLast?_cons_cons]

theorem collapseNlGo_getLast :
    ∀ fuel s, s.length ≤ fuel → (collapseNlGo fuel s).getLast? = s.getLast? := by
  intro fuel
  induction fuel using Nat.strong_induction_on with
  | _ fuel ih =>
    intro s hs
    cases s with
    | nil => rw [collapseNlGo_nil]
    | cons c rest =>
      cases fuel with
      | zero => simp at hs
      | succ m =>
        by_cases h : c = '\n'
        · subst h
          simp only [collapseNlGo, if_pos rfl]
          have h1 : 1 ≤ leadRun '\n' ('\n' :: rest) := by rw [leadRun_cons_self]; omega
          cases hz : ('\n' :: rest).drop (leadRun '\n' ('\n' :: rest)) with
          | nil =>
            rw [if_pos trivial, collapseNlGo_nil, List.append_nil]
            have hrep := eq_replicate_append_drop '\n' ('\n' :: rest)
            rw [hz, List.append_nil] at hrep
            obtain ⟨k, hk⟩ : ∃ k, leadRun '\n' ('\n' :: rest) = k + 1 :=
              ⟨_, (Nat.succ_pred_eq_of_pos h1).symm⟩
            have hlast : ('\n' :: rest).getLast? = some '\n' := by
              conv_lhs => rw [hrep, hk, List.replicate_succ']
              exact List.getLast?_concat _
            rw [hlast]
            split
            · rfl
            · rw [hk, List.replicate_succ', List.getLast?_concat]
          | cons d z' =>
            rw [if_pos trivial]
            have hlen : (d :: z').length ≤ m := by
              have hlz : (d :: z').length
                  = ('\n' :: rest).length - leadRun '\n' ('\n' :: rest) := by
                rw [← hz, List.length_drop]
              have hle := leadRun_le_length '\n' ('\n' :: rest)
              simp only [List.length_cons] at hlz hs hle ⊢
              omega
            rw [List.getLast?_append_of_ne_nil _ (collapseNlGo_ne_nil m d z'),
              ih m (Nat.lt_succ_self m) _ hlen]
            have hrhs : ('\n' :: rest).getLast? = (d :: z').getLast? := by
              conv_lhs => rw [eq_replicate_append_drop '\n' ('\n' :: rest), hz]
              exact List.getLast?_append_of_ne_nil _ (by simp)
            rw [hrhs]
        · simp only [collapseNlGo, if_neg h]
          cases rest with
          | nil => rw [collapseNlGo_nil]
          | cons d r2 =>
            have hlen : (d :: r2).length ≤ m := by
              simp only [List.length_cons] at hs ⊢
              omega
            rw [getLast?_cons_ne_nil _ (collapseNlGo_ne_nil m d r2),
              ih m (Nat.lt_succ_self m) _ hlen, List.getLast?_cons_cons]

/-! ### Heading-marker structure -/

theorem headingAux_spec :
    ∀ (z : Str) (k : Nat), headingAux k z = true →
      (z.drop (leadRun '#' z)).head? = some ' '
        ∧ 1 ≤ k + leadRun '#' z ∧ k + leadRun '#' z ≤ 6 := by
  intro z
  induction z with
  | nil => intro k h; simp [headingAux] at h
  | cons c rest ih =>
    intro k h
    by_cases hc : c = '#'
    · subst hc
      rw [headingAux, if_pos rfl] at h
      obtain ⟨hhead, h1, h2⟩ := ih (k + 1) h
      rw [leadRun_cons_self]
      refine ⟨?_, by omega, by omega⟩
      rw [List.drop_succ_cons]
      exact hhead
    · rw [headingAux, if_neg hc] at h
      simp only [Bool.and_eq_true, decide_eq_true_eq] at h
      obtain ⟨⟨hsp, hk1⟩, hk6⟩ := h
      have hrun : leadRun '#' (c :: rest) = 0 := by simp [leadRun, hc]
      rw [hrun]
      exact ⟨by simp [hsp], by omega, by omega⟩

/-- A matched heading marker decomposes the string as `#`-run, a space,
and the remainder. -/
theorem startsHeading_decomp (z : Str) (h : startsHeadingB z = true) :
    1 ≤ leadRun '#' z ∧ leadRun '#' z ≤ 6
      ∧ z = List.replicate (leadRun '#' z) '#'
          ++ ' ' :: z.drop (leadRun '#' z + 1) := by
  obtain ⟨hhead, h1, h6⟩ := headingAux_spec z 0 h
  simp only [Nat.zero_add] at h1 h6
  refine ⟨h1, h6, ?_⟩
  cases hd : z.drop (leadRun '#' z) with
  | nil => rw [hd] at hhead; simp at hhead
  | cons a t =>
    have ha : a = ' ' := by rw [hd] at hhead; simpa using hhead
    have ht : z.drop (leadRun '#' z + 1) = t := by
      have h2 := congrArg (List.drop 1) hd
      rw [List.drop_drop] at h2
      simpa using h2
    conv_lhs => rw [eq_replicate_append_drop '#' z, hd]
    rw [ha, ht]

theorem fixHeadingsGo_getLast :
    ∀ fuel s, s.length ≤ fuel → (fixHeadingsGo fuel s).getLast? = s.getLast? := by
  intro fuel
  induction fuel using Nat.strong_induction_on with
  | _ fuel ih =>
    intro s hs
    cases s with
    | nil => rw [fixHeadingsGo_nil]
    | cons c rest =>
      cases fuel with
      | zero => simp at hs
      | succ m =>
        by_cases h : ¬c = '\n' ∧ ¬c = '$' ∧ rest.head? = some '\n'
            ∧ startsHeadingB (rest.drop 1) = true
        · obtain ⟨hc1, hc2, hhead, hsh⟩ := h
          obtain ⟨r2, hr2⟩ : ∃ r2, rest = '\n' :: r2 := by
            cases rest with
            | nil => simp at hhead
            | cons a t =>
              have ha : a = '\n' := by simpa using hhead
              exact ⟨t, by rw [ha]⟩
          subst hr2
          simp only [List.drop_one, List.tail_cons] at hsh
          simp only [fixHeadingsGo, List.drop_one, List.tail_cons]
          rw [if_pos ⟨hc1, hc2, rfl, hsh⟩]
          obtain ⟨hk1, hk6, hdec⟩ := startsHeading_decomp r2 hsh
          cases hrr : r2.drop (leadRun '#' r2 + 1) with
          | nil =>
            rw [fixHeadingsGo_nil]
            rw [hrr] at hdec
            have hlhs : (c :: '\n' :: '\n' ::
                (List.replicate (leadRun '#' r2) '#' ++ [' '])).getLast?
                = some ' ' := by
              rw [List.getLast?_cons_cons, List.getLast?_cons_cons,
                getLast?_cons_ne_nil _ (by simp), List.getLast?_concat]
            rw [hlhs, List.getLast?_cons_cons, getLast?_cons_ne_nil _ (by rw [hdec]; simp),
              hdec, List.getLast?_concat]
          | cons d z' =>
            have hlen : (d :: z').length ≤ m := by
              have hlz : (d :: z').length = r2.length - (leadRun '#' r2 + 1) := by
                rw [← hrr, List.length_drop]
              simp only [List.length_cons] at hlz hs ⊢
              omega
            have hw := fixHeadingsGo_ne_nil m d z'
            rw [List.getLast?_cons_cons, List.getLast?_cons_cons,
              getLast?_cons_ne_nil _ (by simp),
              List.getLast?_append_of_ne_nil _ (by simp),
              getLast?_cons_ne_nil _ hw, ih m (Nat.lt_succ_self m) _ hlen]
            have hrhs : (c :: '\n' :: r2).getLast? = (d :: z').getLast? := by
              rw [List.getLast?_cons_cons, getLast?_cons_ne_nil _ (by rw [hdec]; simp),
                hdec, List.getLast?_append_of_ne_nil _ (by simp),
                getLast?_cons_ne_nil _ (by rw [hrr]; simp), hrr]
            rw [hrhs]
        · simp only [fixHeadingsGo]
          rw [if_neg (by simpa [List.drop_one] using h)]
          cases rest with
          | nil => rw [fixHeadingsGo_nil]
          | cons d r2 =>
            have hlen : (d :: r2).length ≤ m := by
              simp only [List.length_cons] at hs ⊢
              omega
            rw [getLast?_cons_ne_nil _ (fixHeadingsGo_ne_nil m d r2),
              ih m (Nat.lt_succ_self m) _ hlen, List.getLast?_cons_cons]

/-! ### The forbidden-pattern scanners: closure properties -/

theorem wsNlPair_cons (c : Char) (w : Str) :
    wsNlPair (c :: w)
      = (((c = ' ' || c = '\t') && w.head? = some '\n') || wsNlPair w) := by
  cases w with
  | nil => simp [wsNlPair]
  | cons d r => simp [wsNlPair]

theorem wsNlPair_suffix : ∀ l t : Str, t <:+ l → wsNlPair l = false → wsNlPair t = false := by
  intro l
  induction l with
  | nil => intro t ht _; rw [List.suffix_nil.mp ht]; rfl
  | cons c rest ih =>
    intro t ht h
    rcases List.suffix_cons_iff.mp ht with h1 | h1
    · rw [h1]; exact h
    · apply ih t h1
      rw [wsNlPair_cons] at h
      exact (Bool.or_eq_false_iff.mp h).2

theorem wsNlPair_extend : ∀ t r : Str, wsNlPair t = true → wsNlPair (t ++ r) = true := by
  intro t
  induction t with
  | nil => intro r h; simp [wsNlPair] at h
  | cons c t' ih =>
    intro r h
    rw [wsNlPair_cons] at h
    rw [List.cons_append, wsNlPair_cons]
    simp only [Bool.or_eq_true] at h ⊢
    rcases h with h | h
    · left
      simp only [Bool.and_eq_true, decide_eq_true_eq] at h ⊢
      refine ⟨h.1, ?_⟩
      cases t' with
      | nil => simp at h
      | cons d r' => simpa using h.2
    · right; exact ih r h

theorem wsNlPair_prefix (t l : Str) (hp : t <+: l) (h : wsNlPair l = false) :
    wsNlPair t = false := by
  obtain ⟨r, hr⟩ := hp
  by_contra hne
  have ht : wsNlPair t = true := by revert hne; cases wsNlPair t <;> simp
  have := wsNlPair_extend t r ht
  rw [hr] at this
  simp [h] at this

theorem wsNlPair_trimJs (s : Str) (h : wsNlPair s = false) :
    wsNlPair (trimJs s) = false := by
  obtain ⟨a, hsuf, hpre⟩ := trimJs_eq s
  exact wsNlPair_prefix _ _ hpre (wsNlPair_suffix s a hsuf h)

theorem wsNlPair_append_nl : ∀ t : Str, wsNlPair t = false → endWsT t = false →
    wsNlPair (t ++ ['\n']) = false := by
  intro t
  induction t with
  | nil => intro _ _; rfl
  | cons c t' ih =>
    intro hw he
    rw [List.cons_append, wsNlPair_cons]
    rw [wsNlPair_cons] at hw
    simp only [Bool.or_eq_false_iff] at hw ⊢
    obtain ⟨hw1, hw2⟩ := hw
    have he' : endWsT t' = false := by
      cases t' with
      | nil => rfl
      | cons d t'' =>
        rw [endWsT, List.getLast?_cons_cons] at he
        rw [endWsT]
        exact he
    refine ⟨?_, ih hw2 he'⟩
    cases t' with
    | nil =>
      have hc : (c = ' ' || c = '\t') = false := by
        simpa [endWsT] using he
      simp [hc]
    | cons d t'' =>
      simpa using hw1

theorem endWsT_append_nl (t : Str) : endWsT (t ++ ['\n']) = false := by
  rw [endWsT, List.getLast?_concat]
  decide

theorem endWsT_trimJs (s : Str) : endWsT (trimJs s) = false := by
  rcases trimJs_last s with h | ⟨c, hc, hws⟩
  · rw [h]; rfl
  · rw [endWsT, hc]
    have h1 : ¬ c = ' ' := fun he => by rw [he] at hws; simp [isJsWs] at hws
    have h2 : ¬ c = '\t' := fun he => by rw [he] at hws; simp [isJsWs] at hws
    simp [h1, h2]

theorem hasTripleB_cons (c : Char) (w : Str) :
    hasTripleB (c :: w)
      = ((c = '\n' && w.take 2 = ['\n', '\n']) || hasTripleB w) := rfl

theorem hasTripleB_suffix : ∀ l t : Str, t <:+ l → hasTripleB l = false →
    hasTripleB t = false := by
  intro l
  induction l with
  | nil => intro t ht _; rw [List.suffix_nil.mp ht]; rfl
  | cons c rest ih =>
    intro t ht h
    rcases List.suffix_cons_iff.mp ht with h1 | h1
    · rw [h1]; exact h
    · apply ih t h1
      rw [hasTripleB_cons] at h
      exact (Bool.or_eq_false_iff.mp h).2

theorem hasTripleB_extend : ∀ t r : Str, hasTripleB t = true →
    hasTripleB (t ++ r) = true := by
  intro t
  induction t with
  | nil => intro r h; simp [hasTripleB] at h
  | cons c t' ih =>
    intro r h
    rw [List.cons_append, hasTripleB_cons]
    rw [hasTripleB_cons] at h
    simp only [Bool.or_eq_true] at h ⊢
    rcases h with h | h
    · left
      simp only [Bool.and_eq_true, decide_eq_true_eq] at h ⊢
      refine ⟨h.1, ?_⟩
      have hlen : 2 ≤ t'.length := by
        have hl := congrArg List.length h.2
        simp [List.length_take] at hl
        omega
      rw [List.take_append_of_le_length hlen, h.2]
    · right; exact ih r h

theorem hasTripleB_prefix (t l : Str) (hp : t <+: l) (h : hasTripleB l = false) :
    hasTripleB t = false := by
  obtain ⟨r, hr⟩ := hp
  by_contra hne
  have ht : hasTripleB t = true := by revert hne; cases hasTripleB t <;> simp
  have := hasTripleB_extend t r ht
  rw [hr] at this
  simp [h] at this

theorem hasTripleB_trimJs (s : Str) (h : hasTripleB s = false) :
    hasTripleB (trimJs s) = false := by
  obtain ⟨a, hsuf, hpre⟩ := trimJs_eq s
  exact hasTripleB_prefix _ _ hpre (hasTripleB_suffix s a hsuf h)

theorem hasTripleB_append_nl : ∀ t : Str, hasTripleB t = false →
    t.getLast? ≠ some '\n' → hasTripleB (t ++ ['\n']) = false := by
  intro t
  induction t with
  | nil => intro _ _; decide
  | cons c t' ih =>
    intro h hl
    rw [List.cons_append, hasTripleB_cons]
    rw [hasTripleB_cons] at h
    simp only [Bool.or_eq_false_iff] at h ⊢
    obtain ⟨hA, hB⟩ := h
    have hl' : t'.getLast? ≠ some '\n' := by
      cases t' with
      | nil => simp
      | cons d t'' => simpa [List.getLast?_cons_cons] using hl
    refine ⟨?_, ih hB hl'⟩
    cases t' with
    | nil =>
      have hc : ¬ c = '\n' := fun he => hl (by simp [he])
      simp [hc]
    | cons d t'' =>
      cases t'' with
      | nil =>
        have hd : ¬ d = '\n' := fun he => hl (by simp [List.getLast?_cons_cons, he])
        have e2 : ((
          [d] : Str) ++ ['\n']).take 2 = [d, '\n'] := rfl
        rw [e2]
        simp [hd]
      | cons e t3 =>
        have e1 : (d :: e :: t3).take 2 = [d, e] := rfl
        have e2 : ((d :: e :: t3) ++ ['\n']).take 2 = [d, e] := rfl
        rw [e1] at hA
        rw [e2]
        exact hA

/-- Step 5/7 output never contains three consecutive newlines. -/
theorem hasTripleB_collapseNlGo :
    ∀ fuel s, s.length ≤ fuel → hasTripleB (collapseNlGo fuel s) = false := by
  intro fuel
  induction fuel using Nat.strong_induction_on with
  | _ fuel ih =>
    intro s hs
    cases s with
    | nil => rw [collapseNlGo_nil]; rfl
    | cons c rest =>
      cases fuel with
      | zero => simp at hs
      | succ m =>
        by_cases h : c = '\n'
        · subst h
          simp only [collapseNlGo, if_pos rfl]
          have h1 : 1 ≤ leadRun '\n' ('\n' :: rest) := by rw [leadRun_cons_self]; omega
          have hrle := leadRun_le_length '\n' ('\n' :: rest)
          cases hz : ('\n' :: rest).drop (leadRun '\n' ('\n' :: rest)) with
          | nil =>
            rw [if_pos trivial, collapseNlGo_nil, List.append_nil]
            split
            · decide
            · rename_i h3
              have hr12 : leadRun '\n' ('\n' :: rest) = 1
                  ∨ leadRun '\n' ('\n' :: rest) = 2 := by omega
              rcases hr12 with h' | h' <;> rw [h'] <;> decide
          | cons d z' =>
            rw [if_pos trivial]
            have hlen : (d :: z').length ≤ m := by
              have hlz : (d :: z').length
                  = ('\n' :: rest).length - leadRun '\n' ('\n' :: rest) := by
                rw [← hz, List.length_drop]
              simp only [List.length_cons] at hlz hs hrle ⊢
              omega
            have hhz : ¬ d = '\n' := by
              have hdh := leadRun_drop_head '\n' ('\n' :: rest)
              rw [hz] at hdh
              simpa using hdh
            have hw := ih m (Nat.lt_succ_self m) _ hlen
            cases hcw : collapseNlGo m (d :: z') with
            | nil => exact absurd hcw (collapseNlGo_ne_nil m d z')
            | cons e w' =>
              have hhead := collapseNlGo_head m (d :: z')
              rw [hcw] at hhead
              have he : e = d := by simpa using hhead
              subst he
              rw [hcw] at hw
              split
              · have eL : (['\n', '\n'] ++ (e :: w')) = '\n' :: '\n' :: e :: w' := rfl
                rw [eL, hasTripleB_cons, hasTripleB_cons]
                have e1 : ('\n' :: e :: w').take 2 = ['\n', e] := rfl
                have e2 : (e :: w').take 2 = e :: w'.take 1 := rfl
                rw [e1, e2]
                simp [hhz, hw]
              · rename_i h3
                have hr12 : leadRun '\n' ('\n' :: rest) = 1
                    ∨ leadRun '\n' ('\n' :: rest) = 2 := by omega
                rcases hr12 with h' | h' <;> rw [h']
                · have eL : (List.replicate 1 '\n' ++ (e :: w')) = '\n' :: e :: w' := rfl
                  rw [eL, hasTripleB_cons]
                  have e2 : (e :: w').take 2 = e :: w'.take 1 := rfl
                  rw [e2]
                  simp [hhz, hw]
                · have eL : (List.replicate 2 '\n' ++ (e :: w'))
                      = '\n' :: '\n' :: e :: w' := rfl
                  rw [eL, hasTripleB_cons, hasTripleB_cons]
                  have e1 : ('\n' :: e :: w').take 2 = ['\n', e] := rfl
                  have e2 : (e :: w').take 2 = e :: w'.take 1 := rfl
                  rw [e1, e2]
                  simp [hhz, hw]
        · simp only [collapseNlGo, if_neg h]
          rw [hasTripleB_cons]
          have hw := ih m (Nat.lt_succ_self m) rest
            (by simp only [List.length_cons] at hs; omega)
          simp [h, hw]

/-! ### Trailing-blank preservation through the global scanners -/

theorem wsNlPair_cons_false (c : Char) (w : Str) (h : wsNlPair (c :: w) = false) :
    ((c = ' ' || c = '\t') && w.head? = some '\n') = false ∧ wsNlPair w = false := by
  rw [wsNlPair_cons] at h
  exact Bool.or_eq_false_iff.mp h

theorem wsNlPair_cons_nonws (c : Char) (hc : (c = ' ' || c = '\t') = false) (w : Str) :
    wsNlPair (c :: w) = wsNlPair w := by
  rw [wsNlPair_cons, hc]
  simp

theorem wsNlPair_append_nonws :
    ∀ x : Str, (∀ c ∈ x, (c = ' ' || c = '\t') = false) → ∀ w : Str,
      wsNlPair (x ++ w) = wsNlPair w := by
  intro x
  induction x with
  | nil => intro _ w; rfl
  | cons c x' ih =>
    intro hx w
    rw [List.cons_append, wsNlPair_cons_nonws c (hx c (by simp))]
    exact ih (fun d hd => hx d (by simp [hd])) w

theorem wsNlPair_collapseRunsGo (ch : Char) :
    ∀ fuel s, s.length ≤ fuel → wsNlPair s = false →
      wsNlPair (collapseRunsGo ch fuel s) = false := by
  intro fuel
  induction fuel using Nat.strong_induction_on with
  | _ fuel ih =>
    intro s hs h
    cases s with
    | nil => rw [collapseRunsGo_nil]; rfl
    | cons c rest =>
      cases fuel with
      | zero => simp at hs
      | succ m =>
        by_cases hc : c = ch
        · subst hc
          simp only [collapseRunsGo, if_pos rfl]
          rw [if_pos trivial]
          have h1 : 1 ≤ leadRun c (c :: rest) := by rw [leadRun_cons_self]; omega
          have hrle := leadRun_le_length c (c :: rest)
          have hsuf := cons_drop_suffix c (c :: rest) (by simp)
          have hcz := wsNlPair_suffix _ _ hsuf h
          obtain ⟨hz1, hz2⟩ := wsNlPair_cons_false _ _ hcz
          have hlen : ((c :: rest).drop (leadRun c (c :: rest))).length ≤ m := by
            simp only [List.length_drop, List.length_cons] at hs hrle ⊢
            omega
          rw [wsNlPair_cons]
          simp only [collapseRunsGo_head]
          rw [hz1]
          simp only [Bool.false_or]
          exact ih m (Nat.lt_succ_self m) _ hlen hz2
        · simp only [collapseRunsGo, if_neg hc]
          obtain ⟨h1, h2⟩ := wsNlPair_cons_false _ _ h
          rw [wsNlPair_cons]
          simp only [collapseRunsGo_head]
          rw [h1]
          simp only [Bool.false_or]
          exact ih m (Nat.lt_succ_self m) rest
            (by simp only [List.length_cons] at hs; omega) h2

theorem wsNlPair_fixDotsGo :
    ∀ fuel s, s.length ≤ fuel → wsNlPair s = false →
      wsNlPair (fixDotsGo fuel s) = false := by
  intro fuel
  induction fuel using Nat.strong_induction_on with
  | _ fuel ih =>
    intro s hs h
    cases s with
    | nil => rw [fixDotsGo_nil]; rfl
    | cons c rest =>
      cases fuel with
      | zero => simp at hs
      | succ m =>
        by_cases hm : c = ' ' ∧ rest.take 2 = ['.', ' ']
        · simp only [fixDotsGo, if_pos hm]
          obtain ⟨r, hr⟩ : ∃ r, rest = '.' :: ' ' :: r := by
            cases rest with
            | nil => simp at hm
            | cons a rest1 =>
              cases rest1 with
              | nil => simp [List.take] at hm
              | cons b rest2 =>
                have hab : a = '.' ∧ b = ' ' := by
                  have h2 := hm.2
                  simp [List.take] at h2
                  exact h2
                exact ⟨rest2, by rw [hab.1, hab.2]⟩
          subst hr
          have hdrop : ('.' :: ' ' :: r).drop 2 = r := rfl
          rw [hdrop]
          have hsuf : (' ' :: r) <:+ (c :: '.' :: ' ' :: r) := ⟨[c, '.'], rfl⟩
          have hcr := wsNlPair_suffix _ _ hsuf h
          obtain ⟨hz1, hz2⟩ := wsNlPair_cons_false _ _ hcr
          have hq : ¬ (r.head? = some '\n') := by simpa using hz1
          have hrec := ih m (Nat.lt_succ_self m) r
            (by simp only [List.length_cons] at hs; omega) hz2
          rw [wsNlPair_cons]
          simp only [fixDotsGo_head]
          simp [hq, hrec]
        · simp only [fixDotsGo, if_neg hm]
          obtain ⟨h1, h2⟩ := wsNlPair_cons_false _ _ h
          rw [wsNlPair_cons]
          simp only [fixDotsGo_head]
          rw [h1]
          simp only [Bool.false_or]
          exact ih m (Nat.lt_succ_self m) rest
            (by simp only [List.length_cons] at hs; omega) h2

theorem wsNlPair_collapseNlGo :
    ∀ fuel s, s.length ≤ fuel → wsNlPair s = false →
      wsNlPair (collapseNlGo fuel s) = false := by
  intro fuel
  induction fuel using Nat.strong_induction_on with
  | _ fuel ih =>
    intro s hs h
    cases s with
    | nil => rw [collapseNlGo_nil]; rfl
    | cons c rest =>
      cases fuel with
      | zero => simp at hs
      | succ m =>
        by_cases hc : c = '\n'
        · subst hc
          simp only [collapseNlGo, if_pos rfl]
          rw [if_pos trivial]
          have h1 : 1 ≤ leadRun '\n' ('\n' :: rest) := by rw [leadRun_cons_self]; omega
          have hrle := leadRun_le_length '\n' ('\n' :: rest)
          have hsuf := cons_drop_suffix '\n' ('\n' :: rest) (by simp)
          have hcz := wsNlPair_suffix _ _ hsuf h
          have hz2 := (wsNlPair_cons_false _ _ hcz).2
          have hlen : (('\n' :: rest).drop (leadRun '\n' ('\n' :: rest))).length ≤ m := by
            simp only [List.length_drop, List.length_cons] at hs hrle ⊢
            omega
          have hrec := ih m (Nat.lt_succ_self m) _ hlen hz2
          split
          · rw [wsNlPair_append_nonws ['\n', '\n'] (by decide)]
            exact hrec
          · rw [wsNlPair_append_nonws (List.replicate (leadRun '\n' ('\n' :: rest)) '\n')
              (fun d hd => by rw [List.eq_of_mem_replicate hd]; decide)]
            exact hrec
        · simp only [collapseNlGo, if_neg hc]
          obtain ⟨h1, h2⟩ := wsNlPair_cons_false _ _ h
          rw [wsNlPair_cons]
          simp only [collapseNlGo_head]
          rw [h1]
          simp only [Bool.false_or]
          exact ih m (Nat.lt_succ_self m) rest
            (by simp only [List.length_cons] at hs; omega) h2

theorem wsNlPair_fixHeadingsGo :
    ∀ fuel s, s.length ≤ fuel → wsNlPair s = false →
      wsNlPair (fixHeadingsGo fuel s) = false := by
  intro fuel
  induction fuel using Nat.strong_induction_on with
  | _ fuel ih =>
    intro s hs h
    cases s with
    | nil => rw [fixHeadingsGo_nil]; rfl
    | cons c rest =>
      cases fuel with
      | zero => simp at hs
      | succ m =>
        by_cases hm : ¬c = '\n' ∧ ¬c = '$' ∧ rest.head? = some '\n'
            ∧ startsHeadingB (rest.drop 1) = true
        · obtain ⟨hc1, hc2, hhead, hsh⟩ := hm
          obtain ⟨r2, hr2⟩ : ∃ r2, rest = '\n' :: r2 := by
            cases rest with
            | nil => simp at hhead
            | cons a t =>
              have ha : a = '\n' := by simpa using hhead
              exact ⟨t, by rw [ha]⟩
          subst hr2
          simp only [List.drop_one, List.tail_cons] at hsh
          simp only [fixHeadingsGo, List.drop_one, List.tail_cons]
          rw [if_pos ⟨hc1, hc2, rfl, hsh⟩]
          obtain ⟨hk1, hk6, hdec⟩ := startsHeading_decomp r2 hsh
          set k := leadRun '#' r2 with hkdef
          set rr := r2.drop (k + 1) with hrrdef
          -- input pair at c: c is not blank-before-newline
          obtain ⟨hp1, hp2⟩ := wsNlPair_cons_false _ _ h
          have hcws : (c = ' ' || c = '\t') = false := by
            by_contra hne
            have : (c = ' ' || c = '\t') = true := by
              revert hne; cases (c = ' ' || c = '\t') <;> simp
            rw [this] at hp1
            simpa using hp1
          rw [wsNlPair_cons]
          rw [hcws]
          simp only [Bool.false_and, Bool.false_or]
          -- peel the two newlines and the hash run
          have hx : ∀ d ∈ ('\n' :: '\n' :: List.replicate k '#'),
              (d = ' ' || d = '\t') = false := by
            intro d hd
            rcases List.mem_cons.mp hd with rfl | hd
            · decide
            rcases List.mem_cons.mp hd with rfl | hd
            · decide
            · rw [List.eq_of_mem_replicate hd]; decide
          have hform : ('\n' :: '\n' :: (List.replicate k '#'
                ++ ' ' :: fixHeadingsGo m rr))
              = ('\n' :: '\n' :: List.replicate k '#')
                ++ (' ' :: fixHeadingsGo m rr) := by
            simp
          rw [hform, wsNlPair_append_nonws _ hx]
          -- the space before the heading text
          have hsufr : (' ' :: rr) <:+ ('\n' :: r2) := by
            refine ⟨'\n' :: List.replicate k '#', ?_⟩
            rw [List.cons_append]
            congr 1
            rw [hdec]
          have hwsr := wsNlPair_suffix _ _ hsufr hp2
          obtain ⟨hq1, hq2⟩ := wsNlPair_cons_false _ _ hwsr
          have hq : ¬ (rr.head? = some '\n') := by simpa using hq1
          have hlen : rr.length ≤ m := by
            rw [hrrdef]
            simp only [List.length_drop, List.length_cons] at hs ⊢
            omega
          have hrec := ih m (Nat.lt_succ_self m) rr hlen hq2
          rw [wsNlPair_cons]
          simp only [fixHeadingsGo_head]
          simp [hq, hrec]
        · simp only [fixHeadingsGo]
          rw [if_neg (by simpa [List.drop_one] using hm)]
          obtain ⟨h1, h2⟩ := wsNlPair_cons_false _ _ h
          rw [wsNlPair_cons]
          simp only [fixHeadingsGo_head]
          rw [h1]
          simp only [Bool.false_or]
          exact ih m (Nat.lt_succ_self m) rest
            (by simp only [List.length_cons] at hs; omega) h2

theorem endWsT_collapseRunsGo (ch : Char) (fuel : Nat) (s : Str)
    (hs : s.length ≤ fuel) : endWsT (collapseRunsGo ch fuel s) = endWsT s := by
  rw [endWsT, endWsT, collapseRunsGo_getLast ch fuel s hs]

theorem endWsT_fixDotsGo (fuel : Nat) (s : Str) (hs : s.length ≤ fuel) :
    endWsT (fixDotsGo fuel s) = endWsT s := by
  rw [endWsT, endWsT, fixDotsGo_getLast fuel s hs]

theorem endWsT_collapseNlGo (fuel : Nat) (s : Str) (hs : s.length ≤ fuel) :
    endWsT (collapseNlGo fuel s) = endWsT s := by
  rw [endWsT, endWsT, collapseNlGo_getLast fuel s hs]

theorem endWsT_fixHeadingsGo (fuel : Nat) (s : Str) (hs : s.length ≤ fuel) :
    endWsT (fixHeadingsGo fuel s) = endWsT s := by
  rw [endWsT, endWsT, fixHeadingsGo_getLast fuel s hs]

/-! ### The heading rule -/

theorem headingAux_collapseNlGo :
    ∀ fuel z k, z.length ≤ fuel →
      headingAux k (collapseNlGo fuel z) = headingAux k z := by
  intro fuel
  induction fuel using Nat.strong_induction_on with
  | _ fuel ih =>
    intro z k hz
    cases z with
    | nil => rw [collapseNlGo_nil]
    | cons c rest =>
      cases fuel with
      | zero => simp at hz
      | succ m =>
        by_cases hc : c = '\n'
        · subst hc
          have hh := collapseNlGo_head (m + 1) ('\n' :: rest)
          cases hcw : collapseNlGo (m + 1) ('\n' :: rest) with
          | nil => rw [hcw] at hh; simp at hh
          | cons e w' =>
            rw [hcw] at hh
            have he : e = '\n' := by simpa using hh
            subst he
            simp [headingAux]
        · simp only [collapseNlGo, if_neg hc]
          by_cases hsharp : c = '#'
          · subst hsharp
            simp only [headingAux]
            rw [if_pos trivial, if_pos trivial]
            exact ih m (Nat.lt_succ_self m) rest (k + 1)
              (by simp only [List.length_cons] at hz; omega)
          · simp only [headingAux]
            rw [if_neg hsharp, if_neg hsharp]

theorem headingAux_fixHeadingsGo :
    ∀ fuel z k, headingAux k (fixHeadingsGo fuel z) = headingAux k z := by
  intro fuel
  induction fuel using Nat.strong_induction_on with
  | _ fuel ih =>
    intro z k
    cases z with
    | nil => rw [fixHeadingsGo_nil]
    | cons c rest =>
      cases fuel with
      | zero => rfl
      | succ m =>
        by_cases hm : ¬c = '\n' ∧ ¬c = '$' ∧ rest.head? = some '\n'
            ∧ startsHeadingB (rest.drop 1) = true
        · obtain ⟨hc1, hc2, hhead, hsh⟩ := hm
          obtain ⟨r2, hr2⟩ : ∃ r2, rest = '\n' :: r2 := by
            cases rest with
            | nil => simp at hhead
            | cons a t =>
              have ha : a = '\n' := by simpa using hhead
              exact ⟨t, by rw [ha]⟩
          subst hr2
          simp only [List.drop_one, List.tail_cons] at hsh
          simp only [fixHeadingsGo, List.drop_one, List.tail_cons]
          rw [if_pos ⟨hc1, hc2, rfl, hsh⟩]
          by_cases hsharp : c = '#'
          · subst hsharp
            simp [headingAux]
          · simp only [headingAux]
            rw [if_neg hsharp, if_neg hsharp]
        · simp only [fixHeadingsGo]
          rw [if_neg (by simpa [List.drop_one] using hm)]
          by_cases hsharp : c = '#'
          · subst hsharp
            simp only [headingAux]
            rw [if_pos trivial, if_pos trivial]
            exact ih m (Nat.lt_succ_self m) rest (k + 1)
          · simp only [headingAux]
            rw [if_neg hsharp, if_neg hsharp]

theorem headingAux_extend :
    ∀ (z : Str) (k : Nat) (r : Str), headingAux k z = true →
      headingAux k (z ++ r) = true := by
  intro z
  induction z with
  | nil => intro k r h; simp [headingAux] at h
  | cons c z' ih =>
    intro k r h
    rw [List.cons_append]
    by_cases hsharp : c = '#'
    · subst hsharp
      rw [headingAux, if_pos rfl] at h ⊢
      exact ih (k + 1) r h
    · rw [headingAux, if_neg hsharp] at h ⊢
      exact h

theorem headingAux_append_nonheading :
    ∀ (z : Str) (k : Nat) (x : Char), ¬ x = '#' → ¬ x = ' ' →
      headingAux k (z ++ [x]) = headingAux k z := by
  intro z
  induction z with
  | nil =>
    intro k x h1 h2
    simp [headingAux, h1, h2]
  | cons c z' ih =>
    intro k x h1 h2
    rw [List.cons_append]
    by_cases hsharp : c = '#'
    · subst hsharp
      rw [headingAux, headingAux, if_pos rfl, if_pos rfl]
      exact ih (k + 1) x h1 h2
    · rw [headingAux, headingAux, if_neg hsharp, if_neg hsharp]

theorem startsHeadingB_cons_nl (z : Str) : startsHeadingB ('\n' :: z) = false := by
  simp [startsHeadingB, headingAux]

theorem badHeading_cons (c : Char) (w : Str) :
    badHeading (c :: w)
      = ((w.head? = some '\n' && !(c = '\n') && !(c = '$')
          && startsHeadingB (w.drop 1)) || badHeading w) := rfl

theorem badHeading_cons_nl (w : Str) : badHeading ('\n' :: w) = badHeading w := by
  rw [badHeading_cons]
  simp

theorem badHeading_cons_of_head (c : Char) (w : Str) (h : w.head? ≠ some '\n') :
    badHeading (c :: w) = badHeading w := by
  rw [badHeading_cons]
  simp [h]

theorem badHeading_replicate_hash :
    ∀ (k : Nat) (w : Str), w.head? ≠ some '\n' →
      badHeading (List.replicate k '#' ++ w) = badHeading w := by
  intro k
  induction k with
  | zero => intro w _; rfl
  | succ n ih =>
    intro w hw
    rw [List.replicate_succ, List.cons_append, badHeading_cons_of_head]
    · exact ih w hw
    · cases n with
      | zero => simpa using hw
      | succ n2 => simp [List.replicate_succ]

theorem badHeading_suffix : ∀ l t : Str, t <:+ l → badHeading l = false →
    badHeading t = false := by
  intro l
  induction l with
  | nil => intro t ht _; rw [List.suffix_nil.mp ht]; rfl
  | cons c rest ih =>
    intro t ht h
    rcases List.suffix_cons_iff.mp ht with h1 | h1
    · rw [h1]; exact h
    · apply ih t h1
      rw [badHeading_cons] at h
      exact (Bool.or_eq_false_iff.mp h).2

theorem badHeading_extend : ∀ t r : Str, badHeading t = true →
    badHeading (t ++ r) = true := by
  intro t
  induction t with
  | nil => intro r h; simp [badHeading] at h
  | cons c t' ih =>
    intro r h
    rw [List.cons_append, badHeading_cons]
    rw [badHeading_cons] at h
    simp only [Bool.or_eq_true] at h ⊢
    rcases h with h | h
    · left
      simp only [Bool.and_eq_true, decide_eq_true_eq] at h ⊢
      obtain ⟨⟨⟨hh, hc1⟩, hc2⟩, hsh⟩ := h
      cases t' with
      | nil => simp at hh
      | cons d t'' =>
        have hd : d = '\n' := by simpa using hh
        refine ⟨⟨⟨by simp [hd], hc1⟩, hc2⟩, ?_⟩
        simp only [List.drop_one, List.tail_cons] at hsh ⊢
        exact headingAux_extend t'' 0 r hsh
    · right; exact ih r h

theorem badHeading_prefix (t l : Str) (hp : t <+: l) (h : badHeading l = false) :
    badHeading t = false := by
  obtain ⟨r, hr⟩ := hp
  by_contra hne
  have ht : badHeading t = true := by revert hne; cases badHeading t <;> simp
  have := badHeading_extend t r ht
  rw [hr] at this
  simp [h] at this

theorem badHeading_trimJs (s : Str) (h : badHeading s = false) :
    badHeading (trimJs s) = false := by
  obtain ⟨a, hsuf, hpre⟩ := trimJs_eq s
  exact badHeading_prefix _ _ hpre (badHeading_suffix s a hsuf h)

theorem badHeading_append_nl : ∀ t : Str, badHeading t = false →
    badHeading (t ++ ['\n']) = false := by
  intro t
  induction t with
  | nil => intro _; decide
  | cons c t' ih =>
    intro h
    rw [List.cons_append, badHeading_cons]
    rw [badHeading_cons] at h
    simp only [Bool.or_eq_false_iff] at h ⊢
    obtain ⟨hA, hB⟩ := h
    refine ⟨?_, ih hB⟩
    cases t' with
    | nil =>
      simp [startsHeadingB, headingAux]
    | cons d t'' =>
      simp only [List.cons_append, List.head?_cons, List.drop_one, List.tail_cons] at hA ⊢
      rw [show startsHeadingB (t'' ++ ['\n']) = startsHeadingB t'' from
        headingAux_append_nonheading t'' 0 '\n' (by decide) (by decide)]
      exact hA

/-- Step 6 establishes the heading rule: after `fixHeadings`, every heading
marker that follows a newline has a newline or `$` right before that
newline (given the input has no blank hanging before a newline). -/
theorem badHeading_fixHeadingsGo :
    ∀ fuel s, s.length ≤ fuel → wsNlPair s = false →
      badHeading (fixHeadingsGo fuel s) = false := by
  intro fuel
  induction fuel using Nat.strong_induction_on with
  | _ fuel ih =>
    intro s hs h
    cases s with
    | nil => rw [fixHeadingsGo_nil]; rfl
    | cons c rest =>
      cases fuel with
      | zero => simp at hs
      | succ m =>
        by_cases hm : ¬c = '\n' ∧ ¬c = '$' ∧ rest.head? = some '\n'
            ∧ startsHeadingB (rest.drop 1) = true
        · obtain ⟨hc1, hc2, hhead, hsh⟩ := hm
          obtain ⟨r2, hr2⟩ : ∃ r2, rest = '\n' :: r2 := by
            cases rest with
            | nil => simp at hhead
            | cons a t =>
              have ha : a = '\n' := by simpa using hhead
              exact ⟨t, by rw [ha]⟩
          subst hr2
          simp only [List.drop_one, List.tail_cons] at hsh
          simp only [fixHeadingsGo, List.drop_one, List.tail_cons]
          rw [if_pos ⟨hc1, hc2, rfl, hsh⟩]
          obtain ⟨hk1, hk6, hdec⟩ := startsHeading_decomp r2 hsh
          set k := leadRun '#' r2 with hkdef
          set rr := r2.drop (k + 1) with hrrdef
          -- outermost: the inserted blank line makes the head position safe
          rw [badHeading_cons]
          have hdrop1 : (('\n' :: '\n' :: (List.replicate k '#'
              ++ ' ' :: fixHeadingsGo m rr)) : Str).drop 1
              = '\n' :: (List.replicate k '#' ++ ' ' :: fixHeadingsGo m rr) := rfl
          rw [hdrop1, startsHeadingB_cons_nl]
          simp only [Bool.and_false, Bool.false_or]
          rw [badHeading_cons_nl, badHeading_cons_nl]
          -- the hash run and the following space
          have hws2 := (wsNlPair_cons_false _ _ h).2
          have hsufr : (' ' :: rr) <:+ ('\n' :: r2) := by
            refine ⟨'\n' :: List.replicate k '#', ?_⟩
            rw [List.cons_append]
            congr 1
            rw [hdec]
          have hwsr := wsNlPair_suffix _ _ hsufr hws2
          have hq1 := (wsNlPair_cons_false _ _ hwsr).1
          have hq : ¬ (rr.head? = some '\n') := by simpa using hq1
          have hq2 := (wsNlPair_cons_false _ _ hwsr).2
          rw [badHeading_replicate_hash k _ (by simp), badHeading_cons_of_head]
          · have hlen : rr.length ≤ m := by
              rw [hrrdef]
              simp only [List.length_drop, List.length_cons] at hs ⊢
              omega
            exact ih m (Nat.lt_succ_self m) rr hlen hq2
          · rw [fixHeadingsGo_head]
            exact hq
        · simp only [fixHeadingsGo]
          rw [if_neg (by simpa [List.drop_one] using hm)]
          have hws2 := (wsNlPair_cons_false _ _ h).2
          by_cases hh : rest.head? = some '\n'
          · obtain ⟨r2, hr2⟩ : ∃ r2, rest = '\n' :: r2 := by
              cases rest with
              | nil => simp at hh
              | cons a t =>
                have ha : a = '\n' := by simpa using hh
                exact ⟨t, by rw [ha]⟩
            subst hr2
            obtain ⟨m2, hm2⟩ : ∃ m2, m = m2 + 1 := by
              refine ⟨m - 1, ?_⟩
              simp only [List.length_cons] at hs
              omega
            subst hm2
            have hfix : fixHeadingsGo (m2 + 1) ('\n' :: r2)
                = '\n' :: fixHeadingsGo m2 r2 := by
              simp only [fixHeadingsGo]
              rw [if_neg (by intro hcon; exact hcon.1 rfl)]
            rw [hfix, badHeading_cons]
            have hds : (('\n' :: fixHeadingsGo m2 r2) : Str).drop 1
                = fixHeadingsGo m2 r2 := rfl
            rw [hds]
            rw [show startsHeadingB (fixHeadingsGo m2 r2) = startsHeadingB r2 from
              headingAux_fixHeadingsGo m2 r2 0]
            have hcond : ((('\n' :: fixHeadingsGo m2 r2).head? = some '\n')
                && !(c = '\n') && !(c = '$') && startsHeadingB r2) = false := by
              by_cases hcc1 : c = '\n'
              · simp [hcc1]
              · by_cases hcc2 : c = '$'
                · simp [hcc2]
                · have hshf : startsHeadingB r2 = false := by
                    by_contra hne
                    have : startsHeadingB r2 = true := by
                      revert hne; cases startsHeadingB r2 <;> simp
                    exact hm ⟨hcc1, hcc2, rfl, by simpa [List.drop_one] using this⟩
                  simp [hshf]
            rw [hcond]
            simp only [Bool.false_or]
            rw [badHeading_cons_nl]
            have hws3 := (wsNlPair_cons_false _ _ hws2).2
            exact ih m2 (by omega) r2
              (by simp only [List.length_cons] at hs; omega) hws3
          · rw [badHeading_cons_of_head c _ (by rw [fixHeadingsGo_head]; exact hh)]
            exact ih m (Nat.lt_succ_self m) rest
              (by simp only [List.length_cons] at hs; omega) hws2

/-- Step 7 (`collapseNl`) preserves the heading rule. -/
theorem badHeading_collapseNlGo :
    ∀ fuel s, s.length ≤ fuel → badHeading s = false →
      badHeading (collapseNlGo fuel s) = false := by
  intro fuel
  induction fuel using Nat.strong_induction_on with
  | _ fuel ih =>
    intro s hs h
    cases s with
    | nil => rw [collapseNlGo_nil]; rfl
    | cons c rest =>
      cases fuel with
      | zero => simp at hs
      | succ m =>
        by_cases hc : c = '\n'
        · subst hc
          simp only [collapseNlGo, if_pos rfl]
          rw [if_pos trivial]
          have h1 : 1 ≤ leadRun '\n' ('\n' :: rest) := by rw [leadRun_cons_self]; omega
          have hrle := leadRun_le_length '\n' ('\n' :: rest)
          have hz2 := badHeading_suffix _ _
            (List.drop_suffix (leadRun '\n' ('\n' :: rest)) ('\n' :: rest)) h
          have hlen : (('\n' :: rest).drop (leadRun '\n' ('\n' :: rest))).length ≤ m := by
            simp only [List.length_drop, List.length_cons] at hs hrle ⊢
            omega
          have hrec := ih m (Nat.lt_succ_self m) _ hlen hz2
          split
          · rw [show (['\n', '\n'] ++ collapseNlGo m
                (('\n' :: rest).drop (leadRun '\n' ('\n' :: rest))))
              = '\n' :: '\n' :: collapseNlGo m
                (('\n' :: rest).drop (leadRun '\n' ('\n' :: rest))) from rfl]
            rw [badHeading_cons_nl, badHeading_cons_nl]
            exact hrec
          · rename_i h3
            have hr12 : leadRun '\n' ('\n' :: rest) = 1
                ∨ leadRun '\n' ('\n' :: rest) = 2 := by omega
            rcases hr12 with h' | h' <;> rw [h'] at hrec ⊢
            · rw [show (List.replicate 1 '\n' ++ collapseNlGo m
                  (List.drop 1 ('\n' :: rest)))
                = '\n' :: collapseNlGo m (List.drop 1 ('\n' :: rest)) from rfl]
              rw [badHeading_cons_nl]
              exact hrec
            · rw [show (List.replicate 2 '\n' ++ collapseNlGo m
                  (List.drop 2 ('\n' :: rest)))
                = '\n' :: '\n' :: collapseNlGo m (List.drop 2 ('\n' :: rest)) from rfl]
              rw [badHeading_cons_nl, badHeading_cons_nl]
              exact hrec
        · simp only [collapseNlGo, if_neg hc]
          rw [badHeading_cons] at h
          obtain ⟨hA, hB⟩ := Bool.or_eq_false_iff.mp h
          by_cases hh : rest.head? = some '\n'
          · obtain ⟨r2, hr2⟩ : ∃ r2, rest = '\n' :: r2 := by
              cases rest with
              | nil => simp at hh
              | cons a t =>
                have ha : a = '\n' := by simpa using hh
                exact ⟨t, by rw [ha]⟩
            subst hr2
            obtain ⟨m2, hm2⟩ : ∃ m2, m = m2 + 1 := by
              refine ⟨m - 1, ?_⟩
              simp only [List.length_cons] at hs
              omega
            subst hm2
            simp only [collapseNlGo, if_pos rfl]
            rw [if_pos trivial]
            have h1' : 1 ≤ leadRun '\n' ('\n' :: r2) := by rw [leadRun_cons_self]; omega
            have hrle' := leadRun_le_length '\n' ('\n' :: r2)
            have hlen' : (('\n' :: r2).drop (leadRun '\n' ('\n' :: r2))).length ≤ m2 := by
              simp only [List.length_drop, List.length_cons] at hs hrle' ⊢
              omega
            have hzB := badHeading_suffix _ _
              (List.drop_suffix (leadRun '\n' ('\n' :: r2)) ('\n' :: r2)) hB
            have hrec2 := ih m2 (by omega) _ hlen' hzB
            have hnls : ((if 3 ≤ leadRun '\n' ('\n' :: r2) then (['\n', '\n'] : Str)
                  else List.replicate (leadRun '\n' ('\n' :: r2)) '\n') = ['\n']
                    ∧ leadRun '\n' ('\n' :: r2) = 1)
                ∨ (if 3 ≤ leadRun '\n' ('\n' :: r2) then (['\n', '\n'] : Str)
                  else List.replicate (leadRun '\n' ('\n' :: r2)) '\n') = ['\n', '\n'] := by
              split
              · right; rfl
              · rename_i h3
                have hr12 : leadRun '\n' ('\n' :: r2) = 1
                    ∨ leadRun '\n' ('\n' :: r2) = 2 := by omega
                rcases hr12 with h' | h'
                · left; rw [h']; exact ⟨rfl, rfl⟩
                · right; rw [h']; rfl
            rcases hnls with ⟨hnl, hrun1⟩ | hnl <;> rw [hnl]
            · -- single newline kept: the heading check transfers
              rw [hrun1]
              simp only [List.drop_one, List.tail_cons]
              rw [show (['\n'] ++ collapseNlGo m2 r2)
                = '\n' :: collapseNlGo m2 r2 from rfl]
              rw [badHeading_cons]
              have hd1 : (('\n' :: collapseNlGo m2 r2) : Str).drop 1
                  = collapseNlGo m2 r2 := rfl
              rw [hd1]
              rw [show startsHeadingB (collapseNlGo m2 r2) = startsHeadingB r2 from
                headingAux_collapseNlGo m2 r2 0
                  (by simp only [List.length_cons] at hs; omega)]
              simp only [List.head?_cons, List.drop_one, List.tail_cons] at hA
              simp only [List.head?_cons]
              rw [hA]
              simp only [Bool.false_or]
              rw [badHeading_cons_nl]
              rw [badHeading_cons_nl] at hB
              exact ih m2 (by omega) r2
                (by simp only [List.length_cons] at hs; omega) hB
            · -- a blank line separates: the head position is safe
              rw [show (['\n', '\n'] ++ collapseNlGo m2
                    (('\n' :: r2).drop (leadRun '\n' ('\n' :: r2))))
                  = '\n' :: '\n' :: collapseNlGo m2
                    (('\n' :: r2).drop (leadRun '\n' ('\n' :: r2))) from rfl]
              rw [badHeading_cons]
              have hd1 : (('\n' :: '\n' :: collapseNlGo m2
                  (('\n' :: r2).drop (leadRun '\n' ('\n' :: r2)))) : Str).drop 1
                  = '\n' :: collapseNlGo m2
                    (('\n' :: r2).drop (leadRun '\n' ('\n' :: r2))) := rfl
              rw [hd1, startsHeadingB_cons_nl]
              simp only [Bool.and_false, Bool.false_or]
              rw [badHeading_cons_nl, badHeading_cons_nl]
              exact hrec2
          · rw [badHeading_cons_of_head c _ (by rw [collapseNlGo_head]; exact hh)]
            exact ih m (Nat.lt_succ_self m) rest
              (by simp only [List.length_cons] at hs; omega) hB

/-! ### Line-level facts for the per-line steps -/

theorem wsNlPair_of_no_nl : ∀ l : Str, (∀ c ∈ l, c ≠ '\n') → wsNlPair l = false := by
  intro l
  induction l with
  | nil => intro _; rfl
  | cons c l' ih =>
    intro h
    rw [wsNlPair_cons]
    have hrec := ih (fun x hx => h x (by simp [hx]))
    cases l' with
    | nil => simp [hrec]
    | cons d l'' =>
      have hd : ¬ (d = '\n') := h d (by simp)
      simp [hd, hrec]

theorem endWsT_append (a b : Str) (hb : b ≠ []) : endWsT (a ++ b) = endWsT b := by
  rw [endWsT, endWsT, List.getLast?_append_of_ne_nil _ hb]

theorem endWsT_cons_ne_nil (c : Char) (z : Str) (h : z ≠ []) :
    endWsT (c :: z) = endWsT z := by
  rw [endWsT, endWsT, getLast?_cons_ne_nil c h]

/-- A newline-free line that does not end in a blank, followed by a newline,
contributes nothing to the blank-before-newline scan. -/
theorem wsNlPair_line_append :
    ∀ l : Str, (∀ c ∈ l, c ≠ '\n') →
      (∀ c, l.getLast? = some c → isJsWs c = false) → ∀ z : Str,
      wsNlPair (l ++ '\n' :: z) = wsNlPair z := by
  intro l
  induction l with
  | nil =>
    intro _ _ z
    rw [List.nil_append]
    exact wsNlPair_cons_nonws '\n' (by decide) z
  | cons c l' ih =>
    intro hnl hend z
    rw [List.cons_append, wsNlPair_cons]
    cases l' with
    | nil =>
      have hc := hend c (by simp)
      have h1 : ¬ c = ' ' := fun he => by rw [he] at hc; simp [isJsWs] at hc
      have h2 : ¬ c = '\t' := fun he => by rw [he] at hc; simp [isJsWs] at hc
      have hcws : (c = ' ' || c = '\t') = false := by simp [h1, h2]
      rw [List.nil_append, hcws]
      simp only [Bool.false_and, Bool.false_or]
      exact wsNlPair_cons_nonws '\n' (by decide) z
    | cons d l'' =>
      have hd : ¬ (d = '\n') := hnl d (by simp)
      have hh : ((d :: l'') ++ '\n' :: z).head? = some d := by simp
      rw [hh]
      have hcond : ((c = ' ' || c = '\t')
          && decide ((some d : Option Char) = some '\n')) = false := by
        simp [hd]
      rw [hcond]
      simp only [Bool.false_or]
      exact ih (fun x hx => hnl x (by simp [hx]))
        (fun x hx => hend x (by rwa [List.getLast?_cons_cons])) z

/-- Joining newline-free lines, none ending in a blank, yields a string with
no blank before a newline and no trailing blank. -/
theorem joinSep_ws_ok :
    ∀ lines : List Str,
      (∀ l ∈ lines, ∀ c ∈ l, c ≠ '\n') →
      (∀ l ∈ lines, ∀ c, l.getLast? = some c → isJsWs c = false) →
      wsNlPair (joinSep lines) = false ∧ endWsT (joinSep lines) = false := by
  intro lines
  induction lines with
  | nil => intro _ _; exact ⟨rfl, rfl⟩
  | cons l ls ih =>
    intro hnl hend
    cases ls with
    | nil =>
      refine ⟨wsNlPair_of_no_nl l (hnl l (by simp)), ?_⟩
      rw [show joinSep [l] = l from rfl, endWsT]
      cases hl : l.getLast? with
      | none => rfl
      | some c =>
        have hc := hend l (by simp) c hl
        have h1 : ¬ c = ' ' := fun he => by rw [he] at hc; simp [isJsWs] at hc
        have h2 : ¬ c = '\t' := fun he => by rw [he] at hc; simp [isJsWs] at hc
        simp [h1, h2]
    | cons l2 ls2 =>
      have hstep : joinSep (l :: l2 :: ls2) = l ++ '\n' :: joinSep (l2 :: ls2) := rfl
      rw [hstep]
      obtain ⟨ihw, ihe⟩ := ih (fun x hx => hnl x (by simp [hx]))
        (fun x hx => hend x (by simp [hx]))
      refine ⟨?_, ?_⟩
      · rw [wsNlPair_line_append l (hnl l (by simp)) (hend l (by simp))]
        exact ihw
      · rw [endWsT_append _ _ (by simp)]
        cases hz : joinSep (l2 :: ls2) with
        | nil => decide
        | cons a z' =>
          rw [endWsT_cons_ne_nil '\n' _ (by simp)]
          rw [hz] at ihe
          exact ihe

theorem splitNl_no_nl : ∀ s : Str, ∀ l ∈ splitNl s, ∀ c ∈ l, c ≠ '\n' := by
  intro s
  induction s with
  | nil =>
    intro l hl c hc
    simp [splitNl] at hl
    rw [hl] at hc
    simp at hc
  | cons c0 cs ih =>
    intro l hl c hc
    simp only [splitNl] at hl
    by_cases h0 : c0 = '\n'
    · rw [if_pos h0] at hl
      rcases List.mem_cons.mp hl with rfl | hl
      · simp at hc
      · exact ih l hl c hc
    · rw [if_neg h0] at hl
      cases hsp : splitNl cs with
      | nil => exact absurd hsp (splitNl_ne_nil cs)
      | cons p ps =>
        rw [hsp] at hl
        rcases List.mem_cons.mp hl with rfl | hl
        · rcases List.mem_cons.mp hc with rfl | hc
          · exact h0
          · exact ih p (by rw [hsp]; simp) c hc
        · exact ih l (by rw [hsp]; simp [hl]) c hc

theorem mem_splitNl_subset : ∀ s : Str, ∀ l ∈ splitNl s, ∀ c ∈ l, c ∈ s := by
  intro s
  induction s with
  | nil =>
    intro l hl c hc
    simp [splitNl] at hl
    rw [hl] at hc
    simp at hc
  | cons c0 cs ih =>
    intro l hl c hc
    simp only [splitNl] at hl
    by_cases h0 : c0 = '\n'
    · rw [if_pos h0] at hl
      rcases List.mem_cons.mp hl with rfl | hl
      · simp at hc
      · exact List.mem_cons.mpr (Or.inr (ih l hl c hc))
    · rw [if_neg h0] at hl
      cases hsp : splitNl cs with
      | nil => exact absurd hsp (splitNl_ne_nil cs)
      | cons p ps =>
        rw [hsp] at hl
        rcases List.mem_cons.mp hl with rfl | hl
        · rcases List.mem_cons.mp hc with rfl | hc
          · simp
          · exact List.mem_cons.mpr (Or.inr (ih p (by rw [hsp]; simp) c hc))
        · exact List.mem_cons.mpr (Or.inr (ih l (by rw [hsp]; simp [hl]) c hc))

theorem splitNl_mapLines (f : Str → Str) (s : Str)
    (hf : ∀ l ∈ splitNl s, ∀ c ∈ f l, c ≠ '\n') :
    splitNl (mapLines f s) = (splitNl s).map f := by
  unfold mapLines
  apply splitNl_joinSep
  · simp [splitNl_ne_nil s]
  · intro l hl c hc
    obtain ⟨l0, hl0, rfl⟩ := List.mem_map.mp hl
    exact hf l0 hl0 c hc

theorem trimEndLine_last (l : Str) :
    ∀ c, (trimEndLine l).getLast? = some c → isJsWs c = false := by
  intro c hc
  unfold trimEndLine at hc
  rw [List.getLast?_reverse] at hc
  rcases dropWhile_head_not isJsWs l.reverse with h | ⟨d, t, h, hd⟩
  · rw [h] at hc; simp at hc
  · rw [h] at hc
    have hdc : d = c := by simpa using hc
    rwa [← hdc]

theorem trimEndLine_subset (l : Str) : ∀ c ∈ trimEndLine l, c ∈ l := by
  intro c hc
  unfold trimEndLine at hc
  rw [List.mem_reverse] at hc
  exact List.mem_reverse.mp ((List.dropWhile_suffix isJsWs).subset hc)

theorem collapseRunsGo_subset (ch : Char) :
    ∀ fuel s, ∀ c ∈ collapseRunsGo ch fuel s, c ∈ s := by
  intro fuel
  induction fuel using Nat.strong_induction_on with
  | _ fuel ih =>
    intro s c hc
    cases s with
    | nil => rw [collapseRunsGo_nil] at hc; simp at hc
    | cons c0 rest =>
      cases fuel with
      | zero => exact hc
      | succ m =>
        by_cases h : c0 = ch
        · subst h
          simp only [collapseRunsGo, if_pos rfl] at hc
          rw [if_pos trivial] at hc
          rcases List.mem_cons.mp hc with rfl | hc
          · simp
          · exact (List.drop_suffix _ _).subset (ih m (Nat.lt_succ_self m) _ c hc)
        · simp only [collapseRunsGo, if_neg h] at hc
          rcases List.mem_cons.mp hc with rfl | hc
          · simp
          · exact List.mem_cons.mpr (Or.inr (ih m (Nat.lt_succ_self m) rest c hc))

theorem cleanLineSpaces_subset (l : Str) : ∀ c ∈ cleanLineSpaces l, c ∈ l := by
  intro c hc
  unfold cleanLineSpaces at hc
  rcases List.mem_append.mp hc with hc | hc
  · exact (List.takeWhile_prefix isJsWs).subset hc
  · have h1 := collapseRunsGo_subset ' ' _ _ c hc
    have h2 := (List.takeWhile_prefix (fun c => !(c = '\r'))).subset h1
    exact (List.drop_suffix _ _).subset h2

theorem cleanLineSpaces_last (l : Str) (hr : ('\r' : Char) ∉ l)
    (hend : ∀ c, l.getLast? = some c → isJsWs c = false) :
    ∀ c, (cleanLineSpaces l).getLast? = some c → isJsWs c = false := by
  have hcontent : (l.drop (l.takeWhile isJsWs).length).takeWhile (fun c => !(c = '\r'))
      = l.dropWhile isJsWs := by
    rw [drop_length_takeWhile]
    apply List.takeWhile_eq_self_iff.mpr
    intro a ha
    have hal : a ∈ l := (List.dropWhile_suffix isJsWs).subset ha
    have : ¬ (a = '\r') := fun he => hr (he ▸ hal)
    simpa using this
  intro c hc
  simp only [cleanLineSpaces] at hc
  rw [hcontent] at hc
  cases hdw : l.dropWhile isJsWs with
  | nil =>
    rw [hdw] at hc
    rw [collapseRunsGo_nil, List.append_nil] at hc
    -- the whole line is blanks; a line not ending in a blank must be empty
    have htw : l.takeWhile isJsWs = l := by
      have h0 := List.takeWhile_append_dropWhile (p := isJsWs) (l := l)
      rw [hdw, List.append_nil] at h0
      exact h0
    rw [htw] at hc
    have hcl : c ∈ l := List.mem_of_mem_getLast? hc
    have hcw : isJsWs c = true := List.mem_takeWhile_imp (htw ▸ hcl)
    have := hend c hc
    rw [this] at hcw
    cases hcw
  | cons a t =>
    rw [hdw] at hc
    rw [List.getLast?_append_of_ne_nil _ (collapseRunsGo_ne_nil ' ' _ a t)] at hc
    rw [collapseRunsGo_getLast ' ' _ _ (le_refl _)] at hc
    apply hend
    have hsplit : l = l.takeWhile isJsWs ++ (a :: t) := by
      conv_lhs => rw [← List.takeWhile_append_dropWhile (p := isJsWs) (l := l), hdw]
    rw [hsplit, List.getLast?_append_of_ne_nil _ (by simp)]
    exact hc

theorem endWsT_collapseDots (x : Str) : endWsT (collapseDots x) = endWsT x :=
  endWsT_collapseRunsGo '.' x.length x (le_refl _)

theorem endWsT_fixDots_eq (x : Str) : endWsT (fixDots x) = endWsT x :=
  endWsT_fixDotsGo x.length x (le_refl _)

theorem endWsT_collapseNl_eq (x : Str) : endWsT (collapseNl x) = endWsT x :=
  endWsT_collapseNlGo x.length x (le_refl _)

/-- C9 counterexample: `postProcess` of
`"a\t:contentReference[oaicite:1]{index=1}\nx$\n# h"` is `"a\t\nx$\n# h\n"`.
Its first line `"a\t"` ends with a tab — refuting "no line ends with a
space or tab": stripping the citation marker happens only after the
per-line `trimEnd`, so it re-exposes a trailing tab.  And its heading line
`"# h"` is preceded by the non-blank line `"x$"` — refuting "every heading
line other than the first is preceded by a blank line": the blank-line
regex of step 6 exempts a `$`-terminated predecessor. -/
theorem C9_postprocess_counterexample :
    postProcess "a\t:contentReference[oaicite:1]\x7bindex=1\x7d\nx$\n# h".toList
      = "a\t\nx$\n# h\n".toList
    ∧ splitNl "a\t\nx$\n# h\n".toList
      = ["a\t".toList, "x$".toList, "# h".toList, []]
    ∧ "a\t".toList.getLast? = some '\t'
    ∧ startsHeadingB "# h".toList = true
    ∧ "x$".toList ≠ [] :=
  ⟨by rfl, by rfl, by rfl, by rfl, by decide⟩

/-- C9 (amended): for every input, `postProcess` returns a nonempty string
ending in exactly one newline, with no run of three or more newlines.  The
other two halves of the claim hold only conditionally and in weakened form:
if the stripping substitutions of steps 3–4 (citation markers, domain
names, `name+digits` references, academic-source names) do not fire on the
trimmed intermediate, and that intermediate has no carriage return (whose
line-tail truncation in step 4 can re-expose trailing blanks), then no
blank (space or tab) sits at the end of a line — no blank before a newline
and no trailing blank — and every heading marker following a newline has a
newline *or a `$`* right before it, i.e. every heading line other than the
first is preceded by a blank line or by a `$`-terminated line (the
formula-aware exemption the original claim omits). -/
theorem C9_postprocess_amended (s : Str) :
    (postProcess s ≠ [] ∧ ['\n'] <:+ postProcess s
      ∧ ¬ (['\n', '\n'] <:+ postProcess s))
    ∧ hasTripleB (postProcess s) = false
    ∧ (removeCitations (mapLines trimEndLine (mapLines normListLine
          (mapLines fixIndent4Line s)))
        = mapLines trimEndLine (mapLines normListLine (mapLines fixIndent4Line s)) →
      removeDomains (mapLines trimEndLine (mapLines normListLine
          (mapLines fixIndent4Line s)))
        = mapLines trimEndLine (mapLines normListLine (mapLines fixIndent4Line s)) →
      removePlusRefs (mapLines trimEndLine (mapLines normListLine
          (mapLines fixIndent4Line s)))
        = mapLines trimEndLine (mapLines normListLine (mapLines fixIndent4Line s)) →
      removeOUP (mapLines trimEndLine (mapLines normListLine
          (mapLines fixIndent4Line s)))
        = mapLines trimEndLine (mapLines normListLine (mapLines fixIndent4Line s)) →
      ('\r' : Char) ∉ mapLines trimEndLine (mapLines normListLine
          (mapLines fixIndent4Line s)) →
      (wsNlPair (postProcess s) = false ∧ endWsT (postProcess s) = false)
        ∧ badHeading (postProcess s) = false) := by
  have hpp : postProcess s
      = trimJs (collapseNl (fixHeadings (collapseNl (fixDots (collapseDots
          (mapLines cleanLineSpaces (removeOUP (removePlusRefs (removeDomains
            (removeCitations (mapLines trimEndLine (mapLines normListLine
              (mapLines fixIndent4Line s))))))))))))) ++ ['\n'] := rfl
  refine ⟨⟨?_, ?_, ?_⟩, ?_, ?_⟩
  · rw [hpp]; simp
  · exact ⟨_, hpp.symm⟩
  · intro hsuf
    obtain ⟨u, hu⟩ := hsuf
    rw [hpp] at hu
    have hu2 : (u ++ ['\n']) ++ ['\n']
        = trimJs (collapseNl (fixHeadings (collapseNl (fixDots (collapseDots
            (mapLines cleanLineSpaces (removeOUP (removePlusRefs (removeDomains
              (removeCitations (mapLines trimEndLine (mapLines normListLine
                (mapLines fixIndent4Line s))))))))))))) ++ ['\n'] := by
      rw [List.append_assoc]
      exact hu
    have heq := List.append_cancel_right hu2
    rcases trimJs_last (collapseNl (fixHeadings (collapseNl (fixDots (collapseDots
        (mapLines cleanLineSpaces (removeOUP (removePlusRefs (removeDomains
          (removeCitations (mapLines trimEndLine (mapLines normListLine
            (mapLines fixIndent4Line s))))))))))))) with hnil | ⟨c, hc, hws⟩
    · rw [hnil] at heq
      simp at heq
    · rw [← heq, List.getLast?_concat] at hc
      have : c = '\n' := by simpa using hc.symm
      rw [this] at hws
      simp [isJsWs] at hws
  · rw [hpp]
    apply hasTripleB_append_nl
    · apply hasTripleB_trimJs
      exact hasTripleB_collapseNlGo _ _ (le_refl _)
    · rcases trimJs_last (collapseNl (fixHeadings (collapseNl (fixDots (collapseDots
          (mapLines cleanLineSpaces (removeOUP (removePlusRefs (removeDomains
            (removeCitations (mapLines trimEndLine (mapLines normListLine
              (mapLines fixIndent4Line s))))))))))))) with hnil | ⟨c, hc, hws⟩
      · rw [hnil]; simp
      · rw [hc]
        intro hcon
        have : c = '\n' := by simpa using hcon
        rw [this] at hws
        simp [isJsWs] at hws
  · intro h3 h4a h4b h4c hR
    rw [hpp, h3, h4a, h4b, h4c]
    -- line-level facts at the 4d stage
    have hlines2 : splitNl (mapLines trimEndLine (mapLines normListLine
          (mapLines fixIndent4Line s)))
        = (splitNl (mapLines normListLine (mapLines fixIndent4Line s))).map
            trimEndLine := by
      apply splitNl_mapLines
      intro l hl c hc
      exact splitNl_no_nl _ l hl c (trimEndLine_subset l c hc)
    have hws4d : wsNlPair (mapLines cleanLineSpaces (mapLines trimEndLine
          (mapLines normListLine (mapLines fixIndent4Line s)))) = false
        ∧ endWsT (mapLines cleanLineSpaces (mapLines trimEndLine
          (mapLines normListLine (mapLines fixIndent4Line s)))) = false := by
      apply joinSep_ws_ok
      · intro l hl c hc
        obtain ⟨l2, hl2, rfl⟩ := List.mem_map.mp hl
        exact splitNl_no_nl _ l2 hl2 c (cleanLineSpaces_subset l2 c hc)
      · intro l hl c hc
        obtain ⟨l2, hl2, rfl⟩ := List.mem_map.mp hl
        have hr2 : ('\r' : Char) ∉ l2 := by
          intro hmem
          exact hR (mem_splitNl_subset _ l2 hl2 '\r' hmem)
        have hend2 : ∀ d, l2.getLast? = some d → isJsWs d = false := by
          rw [hlines2] at hl2
          obtain ⟨l0, _, rfl⟩ := List.mem_map.mp hl2
          exact trimEndLine_last l0
        exact cleanLineSpaces_last l2 hr2 hend2 c hc
    obtain ⟨hW4d, hE4d⟩ := hws4d
    have hW4e := wsNlPair_collapseRunsGo '.' _ _ (le_refl _) hW4d
    have hE4e : endWsT (collapseDots (mapLines cleanLineSpaces (mapLines trimEndLine
          (mapLines normListLine (mapLines fixIndent4Line s))))) = false := by
      rw [endWsT_collapseDots]
      exact hE4d
    have hW4f := wsNlPair_fixDotsGo _ _ (le_refl _) hW4e
    have hE4f : endWsT (fixDots (collapseDots (mapLines cleanLineSpaces
          (mapLines trimEndLine (mapLines normListLine
            (mapLines fixIndent4Line s)))))) = false := by
      rw [endWsT_fixDots_eq]
      exact hE4e
    have hW5 := wsNlPair_collapseNlGo _ _ (le_refl _) hW4f
    have hE5 : endWsT (collapseNl (fixDots (collapseDots (mapLines cleanLineSpaces
          (mapLines trimEndLine (mapLines normListLine
            (mapLines fixIndent4Line s))))))) = false := by
      rw [endWsT_collapseNl_eq]
      exact hE4f
    have hW6 := wsNlPair_fixHeadingsGo _ _ (le_refl _) hW5
    have hW7 := wsNlPair_collapseNlGo _ _ (le_refl _) hW6
    have hB6 := badHeading_fixHeadingsGo _ _ (le_refl _) hW5
    have hB7 := badHeading_collapseNlGo _ _ (le_refl _) hB6
    refine ⟨⟨?_, ?_⟩, ?_⟩
    · exact wsNlPair_append_nl _ (wsNlPair_trimJs _ hW7) (endWsT_trimJs _)
    · exact endWsT_append_nl _
    · exact badHeading_append_nl _ (badHeading_trimJs _ hB7)

/-- Witness: the amended C9 theorem applied to `"hello\nworld"`, whose
stripping steps are no-ops and which has no carriage return. -/
theorem C9_postprocess_amended_witness :
    (postProcess "hello\nworld".toList ≠ []
      ∧ ['\n'] <:+ postProcess "hello\nworld".toList
      ∧ ¬ (['\n', '\n'] <:+ postProcess "hello\nworld".toList))
    ∧ hasTripleB (postProcess "hello\nworld".toList) = false
    ∧ ((wsNlPair (postProcess "hello\nworld".toList) = false
        ∧ endWsT (postProcess "hello\nworld".toList) = false)
      ∧ badHeading (postProcess "hello\nworld".toList) = false) :=
  ⟨(C9_postprocess_amended "hello\nworld".toList).1,
   (C9_postprocess_amended "hello\nworld".toList).2.1,
   (C9_postprocess_amended "hello\nworld".toList).2.2
     (by rfl) (by rfl) (by rfl) (by rfl) (by decide)⟩

end AICE
